import Mathlib

/-!
Verification of the incremental transcription reconciliation engine, the
recording state machine and the finalization pipeline of a local dictation
utility.  Raw text is modelled as `List Char`; the recognizer and the audio
device are opaque collaborators, so recognition results arrive as event
payloads.  JavaScript strings are ASCII in all inputs of interest; whitespace
and case conversion are modelled on the ASCII fragment.
-/

namespace LocalVoice

/-- ASCII whitespace, modelling the `\s` class for the inputs in scope. -/
def isWs (c : Char) : Bool :=
  c = ' ' || c = '\t' || c = '\n' || c = '\r'

/-- A committed word: a maximal run of non-whitespace characters. -/
abbrev Word := List Char

/-- Tokenizer loop for `splitWords`: `cur` is the reversed run of
non-whitespace characters read since the last separator. -/
def splitWordsAux : List Char → List Char → List Word
  | [], cur => if cur = [] then [] else [cur.reverse]
  | c :: cs, cur =>
    if isWs c then
      if cur = [] then splitWordsAux cs []
      else cur.reverse :: splitWordsAux cs []
    else splitWordsAux cs (c :: cur)

/-- `splitWords text` models `text.trim().split(/\s+/).filter(w => w.length > 0)`:
the maximal runs of non-whitespace characters of `text`, in order. -/
def splitWords (l : List Char) : List Word :=
  splitWordsAux l []

/-- `trimChars` models `String.prototype.trim` (ASCII whitespace). -/
def trimChars (l : List Char) : List Char :=
  ((l.dropWhile (isWs ·)).reverse.dropWhile (isWs ·)).reverse

example : splitWords "the cat  cat sat".toList =
    ["the".toList, "cat".toList, "cat".toList, "sat".toList] := by decide

example : splitWords "  hello there ".toList = ["hello".toList, "there".toList] := by decide

example : trimChars "  a b ".toList = "a b".toList := by decide

/-!
## Word Reconciler

Two variants exist in the source.  The batch transcription script walks the
candidate words `newWords[j]` for `j` from the initial `typedWords.length` to
`newWords.length - 1`, skipping a candidate identical to the last committed
word (`commitLoop` below); the interactive script's `typeNewWords` types every
word beyond `typedWords.length` with no skip.  Both push each emitted word
onto the committed log.
-/

/-- The inner loop of the batch reconciliation: consume the candidate words in
order; a candidate equal to the last committed word is skipped
(`typedWords.length > 0 && word === typedWords[typedWords.length - 1]`),
any other candidate is appended to the log and emitted.  Returns the final log
and the emitted words of this call. -/
def commitLoop : List Word → List Word → List Word × List Word
  | log, [] => (log, [])
  | log, w :: ws =>
    if log.getLast? = some w then
      commitLoop log ws
    else
      let r := commitLoop (log ++ [w]) ws
      (r.1, w :: r.2)

/-- One reconcile call of the batch script: split the hypothesis text and
offer the words beyond the committed length (`for (let j = typedWords.length;
j < newWords.length; j++)`) to `commitLoop`. -/
def reconcile (log : List Word) (text : List Char) : List Word × List Word :=
  commitLoop log ((splitWords text).drop log.length)

/-- `typeNewWords` of the interactive script: if the update has strictly more
words than are committed, type and commit every word beyond the committed
count, in order; otherwise do nothing.  No duplicate suppression. -/
def typeNewWords (log : List Word) (text : List Char) : List Word × List Word :=
  let newWords := splitWords text
  if log.length < newWords.length then
    (log ++ newWords.drop log.length, newWords.drop log.length)
  else (log, [])

/-- The committed log after feeding a sequence of hypothesis updates through a
reconcile step function, starting from log `log`. -/
def runLog (step : List Word → List Char → List Word × List Word) :
    List Word → List (List Char) → List Word
  | log, [] => log
  | log, u :: us => runLog step (step log u).1 us

/-- The word sequences emitted by the successive reconcile calls, in call
order. -/
def runEmits (step : List Word → List Char → List Word × List Word) :
    List Word → List (List Char) → List (List Word)
  | _, [] => []
  | log, u :: us => (step log u).2 :: runEmits step (step log u).1 us

/-- Modelled from the spec for refinement comparison: the spec's skip rule
("if it is identical to the immediately preceding committed word — the last
element of the log, or the last already-accepted candidate within this same
call — skip it, otherwise append it and emit it"), expressed directly over the
candidate words, `prev` being the word committed most recently. -/
def specSkipCommit (prev : Option Word) : List Word → List Word
  | [] => []
  | w :: ws =>
    if prev = some w then specSkipCommit prev ws
    else w :: specSkipCommit (some w) ws

example : reconcile ["the".toList, "cat".toList] "the cat cat sat".toList =
    (["the".toList, "cat".toList, "sat".toList], ["sat".toList]) := by decide

example : typeNewWords ["the".toList, "cat".toList] "the cat cat sat".toList =
    (["the".toList, "cat".toList, "cat".toList, "sat".toList],
     ["cat".toList, "sat".toList]) := by decide

example : reconcile [] "a a a b".toList =
    (["a".toList, "b".toList], ["a".toList, "b".toList]) := by decide

example : (reconcile ["a".toList, "b".toList] "a a a b".toList).2 =
    ["a".toList, "b".toList] := by decide

/-!
## Finalization pipeline (`post-processor.js`, `config.js`, `processRecording`)
-/

/-- Sentence-ending punctuation, the class `[.!?]`. -/
def isPunctSE (c : Char) : Bool :=
  c = '.' || c = '!' || c = '?'

/-- The regex word-character class `\w`, i.e. `[A-Za-z0-9_]`. -/
def isWordChar (c : Char) : Bool :=
  c.isAlpha || c.isDigit || c = '_'

/-- Whether the next character (if any) is a word character; used for the
word-boundary `\b` on the right of a match. -/
def nextIsWordChar (cs : List Char) : Bool :=
  match cs with
  | [] => false
  | d :: _ => isWordChar d

/-- First capitalization rule:
`text.charAt(0).toUpperCase() + text.slice(1)`. -/
def capFirst : List Char → List Char
  | [] => []
  | c :: cs => c.toUpper :: cs

/-- Scanner state for the global replace of `([.!?]\s+)([a-z])`: whether the
characters read so far end in sentence punctuation (`seenPunct`) or in
sentence punctuation followed by at least one whitespace (`seenPunctWs`). -/
inductive PunctSt where
  | clear
  | seenPunct
  | seenPunctWs
deriving DecidableEq

/-- State transition of the `([.!?]\s+)` context tracker. -/
def punctStep (st : PunctSt) (c : Char) : PunctSt :=
  if isPunctSE c then .seenPunct
  else if isWs c then
    match st with
    | .clear => .clear
    | .seenPunct => .seenPunctWs
    | .seenPunctWs => .seenPunctWs
  else .clear

/-- Second capitalization rule, the global regex replace
`replace(/([.!?]\s+)([a-z])/g, punctuation + letter.toUpperCase())`, as a
left-to-right scan: a lowercase ASCII letter read in state `seenPunctWs` is
upper-cased. -/
def capAfterPunct : PunctSt → List Char → List Char
  | _, [] => []
  | st, c :: cs =>
    (if st = .seenPunctWs && c.isLower then c.toUpper else c) :: capAfterPunct (punctStep st c) cs

/-- Third capitalization rule, the global replace `replace(/\bi\b/g, 'I')`:
a lowercase `i` whose neighbours are not word characters becomes `I`.
`prevWord` records whether the previous character is a word character
(`false` at the start of the text). -/
def capIGo : Bool → List Char → List Char
  | _, [] => []
  | prevWord, c :: cs =>
    if c = 'i' && !prevWord && !nextIsWordChar cs then 'I' :: capIGo true cs
    else c :: capIGo (isWordChar c) cs

/-- Whether `noun` matches case-insensitively at the head of `l` with a word
boundary after the match (`\b` on the right); the nouns are lowercase
letters, so the case-insensitive regex match is equality after `toLowerCase`.
The boundary on the left is handled by the scanner's `prevWord` flag. -/
def ciWordMatch (noun l : List Char) : Bool :=
  decide (noun.length ≤ l.length) &&
  (l.take noun.length).map Char.toLower == noun &&
  !nextIsWordChar (l.drop noun.length)

/-- The replacement applied to each proper-noun match:
`match.charAt(0).toUpperCase() + match.slice(1).toLowerCase()`. -/
def titlecase (m : List Char) : List Char :=
  match m with
  | [] => []
  | c :: cs => c.toUpper :: cs.map Char.toLower

/-- Fourth capitalization rule for one noun, the global replace
`replace(/\bnoun\b/gi, titlecase)`, scanning left to right.  After a match the
previous character is the match's last letter, a word character, so the
scanner resumes with `prevWord := true`.  `fuel` only forces structural
recursion; every step consumes at least one character, so `fuel = l.length`
suffices. -/
def replaceNounFuel (noun : List Char) : Nat → Bool → List Char → List Char
  | 0, _, l => l
  | _ + 1, _, [] => []
  | fuel + 1, prevWord, c :: cs =>
    if !prevWord && !noun.isEmpty && ciWordMatch noun (c :: cs) then
      titlecase ((c :: cs).take noun.length) ++
        replaceNounFuel noun fuel true ((c :: cs).drop noun.length)
    else c :: replaceNounFuel noun fuel (isWordChar c) cs

/-- Global case-insensitive boundary replace of one proper noun. -/
def replaceNoun (noun l : List Char) : List Char :=
  replaceNounFuel noun l.length false l

/-- The `properNouns` list of `_capitalizeText`, in source order. -/
def properNouns : List (List Char) :=
  ["monday".toList, "tuesday".toList, "wednesday".toList, "thursday".toList,
   "friday".toList, "saturday".toList, "sunday".toList,
   "january".toList, "february".toList, "march".toList, "april".toList,
   "may".toList, "june".toList, "july".toList, "august".toList,
   "september".toList, "october".toList, "november".toList, "december".toList]

/-- The proper-noun loop of `_capitalizeText`. -/
def applyNouns (l : List Char) : List Char :=
  properNouns.foldl (fun acc noun => replaceNoun noun acc) l

/-- `PostProcessor._capitalizeText`: first-character upper-casing, then the
sentence rule, then the `\bi\b` rule, then the proper-noun loop
(`if (!text) return text` handles the empty text). -/
def capitalizeText (l : List Char) : List Char :=
  if l = [] then l
  else applyNouns (capIGo false (capAfterPunct .clear (capFirst l)))

/-- Case-insensitive match of `pat` at the head of `l` (no word boundaries):
the correction patterns contain no regex metacharacters. -/
def ciPrefix (pat l : List Char) : Bool :=
  decide (pat.length ≤ l.length) &&
  (l.take pat.length).map Char.toLower == pat.map Char.toLower

/-- Global case-insensitive substring replace `replace(new RegExp(pat, 'gi'),
repl)`: leftmost matches on the original text, scanning resumes after each
matched substring, replacements are not rescanned.  `fuel = l.length`
suffices as every step consumes at least one character. -/
def ciReplaceFuel (pat repl : List Char) : Nat → List Char → List Char
  | 0, l => l
  | _ + 1, [] => []
  | fuel + 1, c :: cs =>
    if !pat.isEmpty && ciPrefix pat (c :: cs) then
      repl ++ ciReplaceFuel pat repl fuel ((c :: cs).drop pat.length)
    else c :: ciReplaceFuel pat repl fuel cs

/-- Global case-insensitive substring replace of one correction rule. -/
def ciReplace (pat repl l : List Char) : List Char :=
  ciReplaceFuel pat repl l.length l

/-- The apostrophe character (U+0027), written by code point. -/
def apos : Char := Char.ofNat 39

/-- The correction rules of `_applyCorrections`, in application order: first
the `config.postProcessing.corrections` map, then the built-in homophones. -/
def corrections : List (List Char × List Char) :=
  [("at that".toList, "that that".toList),
   ("for from".toList, "from".toList),
   ("their going".toList, "they".toList ++ [apos] ++ "re going".toList),
   ("your going".toList, "you".toList ++ [apos] ++ "re going".toList),
   ("its a".toList, "it".toList ++ [apos] ++ "s a".toList),
   ("its been".toList, "it".toList ++ [apos] ++ "s been".toList)]

/-- `PostProcessor._applyCorrections`. -/
def applyCorrections (l : List Char) : List Char :=
  corrections.foldl (fun acc pr => ciReplace pr.1 pr.2 acc) l

/-- `config.postProcessing.errorCorrections`. -/
def errorCorrections : Bool := true

/-- `config.postProcessing.autoCapitalize`. -/
def autoCapitalize : Bool := true

/-- `PostProcessor.process`: corrections, then capitalization, each behind its
configuration flag. -/
def postProcess (l : List Char) : List Char :=
  let l1 := if errorCorrections then applyCorrections l else l
  if autoCapitalize then capitalizeText l1 else l1

/-- One aligned word of a final recognition result: the word text and its
optional confidence (`{word, conf}`); confidences are rational numbers. -/
structure WordResult where
  word : List Char
  conf : Option ℚ
deriving DecidableEq

/-- `config.recognition.minConfidence`. -/
def minConfidence : ℚ := mkRat 7 10

/-- `PostProcessor.filterByConfidence`: keep a word when its confidence is
absent (`word.conf === undefined`), or at least the threshold
(`word.conf >= minConfidence`); a `none` threshold selects the configured
default, as `threshold !== null ? threshold : config.recognition.minConfidence`
does. -/
def filterByConfidence (words : List WordResult) (threshold : Option ℚ) : List WordResult :=
  let m := threshold.getD minConfidence
  words.filter fun w =>
    match w.conf with
    | none => true
    | some c => decide (m ≤ c)

/-- `text.split(' ')`: split on single spaces, keeping empty fragments. -/
def splitOnSpace : List Char → List (List Char)
  | [] => [[]]
  | c :: cs =>
    if c = ' ' then [] :: splitOnSpace cs
    else
      match splitOnSpace cs with
      | [] => [[c]]
      | t :: ts => (c :: t) :: ts

/-- The dedup loop of `removeDuplicates`: drop `words[i]` when it equals
`words[i-1]`, the previous input token. -/
def dedupGo : List Char → List (List Char) → List (List Char)
  | _, [] => []
  | prev, w :: ws => if w = prev then dedupGo w ws else w :: dedupGo w ws

/-- `tokens.join(' ')`. -/
def joinSpace : List (List Char) → List Char
  | [] => []
  | [t] => t
  | t :: ts => t ++ ' ' :: joinSpace ts

/-- `PostProcessor.removeDuplicates`: split on single spaces, keep each token
that differs from its predecessor, join with single spaces.  The first token
is always kept (`i > 0` guard). -/
def removeDuplicates (l : List Char) : List Char :=
  match splitOnSpace l with
  | [] => []
  | w :: ws => joinSpace (w :: dedupGo w ws)

/-- The final-result text pipeline of `processRecording`: trim the engine
text; when aligned word results are present, replace it by the
confidence-filtered words joined with spaces (threshold
`config.recognition.minConfidence`); then `removeDuplicates`; then
`PostProcessor.process`. -/
def processFinalText (wordResults : List WordResult) (rawText : List Char) : List Char :=
  let t := trimChars rawText
  let t :=
    if wordResults.isEmpty then t
    else joinSpace ((filterByConfidence wordResults (some minConfidence)).map (fun w => w.word))
  postProcess (removeDuplicates t)

/-!
## Recording session state machine (interactive script)

Timers cannot be cancelled in the source (`setTimeout` with no corresponding
`clearTimeout`), so a stop signal increments a pending-timeout counter and a
separate `drain` event models one such timeout firing; the recognizer and the
recorder are opaque external resources, so the state only records whether each
is held, and recognition results arrive as event payloads.  A JavaScript value
received from the engine is a string, `null`, or a non-string value; for a
non-string the source's `.trim()` call throws and the surrounding
`try`/`catch` discards the update, which the model folds into the same
no-words branch.
-/

/-- A JSON field value as the engine hands it to the session. -/
inductive JsVal where
  | jstr (s : List Char)
  | jnull
  | jnum (q : ℚ)
  | jbool (b : Bool)
deriving DecidableEq

/-- The status displayed in the header. -/
inductive Status where
  | idle
  | recording
  | processing
deriving DecidableEq

/-- `maxDataPoints`. -/
def maxDataPoints : Nat := 50

/-- The grace window of `stopRecording`, the literal of
`setTimeout(..., 2000)`, in milliseconds. -/
def voskGraceWindowMs : Nat := 2000

/-- `config.recognition.bufferTime` (ms). -/
def configBufferTime : Nat := 2000

/-- The mutable session state of the interactive script. -/
structure AppState where
  isRecording : Bool
  hasRecognizer : Bool
  hasRecorder : Bool
  typedWords : List Word
  audioData : List ℚ
  lastHypText : List Char
  status : Status
  pendingStops : Nat
deriving DecidableEq

/-- The state at program start. -/
def initialState : AppState :=
  { isRecording := false, hasRecognizer := false, hasRecorder := false,
    typedWords := [], audioData := [], lastHypText := [],
    status := .idle, pendingStops := 0 }

/-- `startRecording`: a no-op while recording; otherwise reset the word queue,
the waveform data and the partial-text tracker, set the status, and acquire a
fresh recognizer and recorder. -/
def startRecording (s : AppState) : AppState :=
  if s.isRecording then s
  else
    { isRecording := true, hasRecognizer := true, hasRecorder := true,
      typedWords := [], audioData := [], lastHypText := [],
      status := .recording, pendingStops := s.pendingStops }

/-- `stopRecording`: a no-op while not recording; otherwise display
`processing` and schedule a drain timeout for `voskGraceWindowMs`
milliseconds later (audio capture and recognition continue meanwhile). -/
def stopRecording (s : AppState) : AppState :=
  if s.isRecording then
    { s with status := .processing, pendingStops := s.pendingStops + 1 }
  else s

/-- The audio-stream data handler: inside `if (recognizer)`, push the chunk's
amplitude (shifting past `maxDataPoints`), then read the partial result; a
non-empty trimmed partial with strictly more words than are typed updates the
partial-text tracker and runs `typeNewWords`.  A `null` partial fails the
truthiness guard and a non-string throws inside the `try`, so both leave the
words untouched.  Returns the updated state and the words typed. -/
def handleChunk (amp : ℚ) (partialVal : JsVal) (s : AppState) : AppState × List Word :=
  if s.hasRecognizer then
    let ad := s.audioData ++ [amp]
    let ad := if maxDataPoints < ad.length then ad.tail else ad
    let s := { s with audioData := ad }
    match partialVal with
    | .jstr t =>
      let newText := trimChars t
      if newText.length ≠ 0 then
        if s.typedWords.length < (splitWords newText).length then
          let r := typeNewWords s.typedWords newText
          ({ s with lastHypText := newText, typedWords := r.1 }, r.2)
        else (s, [])
      else (s, [])
    | _ => (s, [])
  else (s, [])

/-- The words typed by the final-result block of the drain timeout: every
word of the final text beyond the typed count, in order, with no skip. -/
def finalTypeWords (log : List Word) (finalWords : List Word) : List Word :=
  log ++ finalWords.drop log.length

/-- One drain timeout firing (`setTimeout` body of `stopRecording`): stop and
release the recorder if held; if the recognizer is held, take its final
result, free it, and type the remaining words of a non-empty final text (a
malformed final result is caught and only resets the status); finally clear
`isRecording` and the waveform data.  A firing with no recorded pending stop
cannot occur; it is modelled as the identity. -/
def drainFire (finalVal : JsVal) (s : AppState) : AppState :=
  if s.pendingStops = 0 then s
  else
    let s := { s with pendingStops := s.pendingStops - 1, hasRecorder := false }
    let s :=
      if s.hasRecognizer then
        let s := { s with hasRecognizer := false }
        match finalVal with
        | .jstr t =>
          let ft := trimChars t
          if ft.length ≠ 0 then
            { s with typedWords := finalTypeWords s.typedWords (splitWords ft),
                     status := .idle }
          else { s with status := .idle }
        | _ => { s with status := .idle }
      else s
    { s with isRecording := false, audioData := [] }

/-- An input event of the session: a start or stop signal, an audio chunk
with the engine's partial result, or a drain timeout firing with the engine's
final result. -/
inductive Ev where
  | start
  | stop
  | chunk (amp : ℚ) (partialVal : JsVal)
  | drain (finalVal : JsVal)

/-- One event step. -/
def stepEv (s : AppState) : Ev → AppState
  | .start => startRecording s
  | .stop => stopRecording s
  | .chunk a p => (handleChunk a p s).1
  | .drain v => drainFire v s

/-- Run a sequence of events. -/
def runEvents (s : AppState) (evs : List Ev) : AppState :=
  evs.foldl stepEv s

/-!
## Spec-side definitions

These follow the specification's words and are compared with the definitions
translated from the source.
-/

/-- Modelled from the spec: a word is dropped by the confidence filter exactly
when its confidence is present and strictly below the threshold; this is the
keep-predicate (its negation). -/
def keptBySpec (w : WordResult) (m : ℚ) : Bool :=
  match w.conf with
  | none => true
  | some c => !decide (c < m)

/-- Length of the whitespace run immediately before position `i`
(positions `i - r, …, i - 1` are whitespace, position `i - r - 1` is not). -/
def wsRunBefore (s : List Char) : Nat → Nat
  | 0 => 0
  | i + 1 => if isWs (s.getD i ' ') then wsRunBefore s i + 1 else 0

/-- Modelled from the claim: position `i` follows sentence-ending punctuation
plus (at least one) whitespace. -/
def punctCtx (s : List Char) (i : Nat) : Bool :=
  let r := wsRunBefore s i
  decide (0 < r) && decide (r + 1 ≤ i) && isPunctSE (s.getD (i - r - 1) ' ')

/-- Modelled from the claim: position `i` holds a standalone lowercase word
`i` — its neighbours, where present, are not word characters. -/
def standaloneI (s : List Char) (i : Nat) : Bool :=
  (s.getD i ' ' = 'i') &&
  (decide (i = 0) || !isWordChar (s.getD (i - 1) ' ')) &&
  !isWordChar (s.getD (i + 1) ' ')

/-- A boundary-delimited case-insensitive occurrence of `noun` starting at
position `a` of `s`. -/
def nounOccAt (s noun : List Char) (a : Nat) : Bool :=
  decide (a + noun.length ≤ s.length) &&
  ((s.drop a).take noun.length).map Char.toLower == noun &&
  (decide (a = 0) || !isWordChar (s.getD (a - 1) ' ')) &&
  !isWordChar (s.getD (a + noun.length) ' ')

/-- Position `i` starts an occurrence of some proper noun. -/
def nounStartAt (s : List Char) (i : Nat) : Bool :=
  properNouns.any fun noun => nounOccAt s noun i

/-- Position `i` lies strictly inside an occurrence of some proper noun. -/
def nounInsideAt (s : List Char) (i : Nat) : Bool :=
  properNouns.any fun noun =>
    (List.range i).any fun a => nounOccAt s noun a && decide (i < a + noun.length)

/-- Modelled from the claim: the capitalization transform described
positionally — upper-case the first character, a lowercase letter after
sentence punctuation plus whitespace, a standalone `i`, and the first letter
of a proper-noun occurrence; lower-case the remaining letters of a
proper-noun occurrence; leave every other character unchanged. -/
def specCapitalize (s : List Char) : List Char :=
  (List.range s.length).map fun i =>
    let c := s.getD i ' '
    if decide (i = 0) || (punctCtx s i && c.isLower) || standaloneI s i || nounStartAt s i then
      c.toUpper
    else if nounInsideAt s i then c.toLower
    else c

/-- The scanner state of the sentence rule after reading the first `i`
characters. -/
def punctStateAt (s : List Char) (i : Nat) : PunctSt :=
  (s.take i).foldl punctStep .clear

/-- A boundary-delimited case-insensitive occurrence of `noun` starting at
position `a`, stated pointwise; `pw` tells whether a word character
immediately precedes the scanned text (`false` at the start of the whole
text), which settles the left boundary of an occurrence at position 0. -/
def nounOccAtPW (noun l : List Char) (pw : Bool) (a : Nat) : Prop :=
  a + noun.length ≤ l.length ∧
  (∀ k, k < noun.length → Char.toLower (l.getD (a + k) ' ') = noun.getD k ' ') ∧
  (if a = 0 then pw = false else isWordChar (l.getD (a - 1) ' ') = false) ∧
  isWordChar (l.getD (a + noun.length) ' ') = false

/-- Position `i` starts an occurrence of a noun of `NS`. -/
def nounStartP (NS : List (List Char)) (l : List Char) (i : Nat) : Prop :=
  ∃ noun ∈ NS, nounOccAtPW noun l false i

/-- Position `i` lies strictly inside an occurrence of a noun of `NS`. -/
def nounInsideP (NS : List (List Char)) (l : List Char) (i : Nat) : Prop :=
  ∃ noun ∈ NS, ∃ a, nounOccAtPW noun l false a ∧ a < i ∧ i < a + noun.length

/-- A usable proper noun: non-empty and all lowercase ASCII letters. -/
def lowerAlphaNoun (noun : List Char) : Prop :=
  noun ≠ [] ∧ ∀ c ∈ noun, c.isLower = true

example : capitalizeText "hi. there i am on monday MAY day".toList =
    "Hi. There I am on Monday May day".toList := by decide

example : specCapitalize "hi. there i am on monday MAY day".toList =
    "Hi. There I am on Monday May day".toList := by decide

example : processFinalText
    [⟨"um".toList, some (mkRat 3 10)⟩, ⟨"the".toList, some (mkRat 9 10)⟩,
     ⟨"answer".toList, some (mkRat 95 100)⟩] [] = "The answer".toList := by decide

example : removeDuplicates "a  a b b b c".toList = "a  a b c".toList := by decide

/-!
## Theorems: Word Reconciler (C1, C2, C3)
-/

theorem commitLoop_fst (cs : List Word) :
    ∀ log : List Word, (commitLoop log cs).1 = log ++ (commitLoop log cs).2 := by
  induction cs with
  | nil => intro log; simp [commitLoop]
  | cons w ws ih =>
    intro log
    simp only [commitLoop]
    split
    · exact ih log
    · simpa using ih (log ++ [w])

theorem commitLoop_snd_eq_spec (cs : List Word) :
    ∀ log : List Word, (commitLoop log cs).2 = specSkipCommit log.getLast? cs := by
  induction cs with
  | nil => intro log; simp [commitLoop, specSkipCommit]
  | cons w ws ih =>
    intro log
    simp only [commitLoop, specSkipCommit]
    split
    · simp [*]
    · simpa [List.getLast?_concat] using ih (log ++ [w])

theorem reconcile_fst (log : List Word) (text : List Char) :
    (reconcile log text).1 = log ++ (reconcile log text).2 :=
  commitLoop_fst _ log

theorem typeNewWords_fst (log : List Word) (text : List Char) :
    (typeNewWords log text).1 = log ++ (typeNewWords log text).2 := by
  simp only [typeNewWords]
  split <;> simp

theorem runLog_append (step : List Word → List Char → List Word × List Word)
    (us vs : List (List Char)) :
    ∀ log, runLog step log (us ++ vs) = runLog step (runLog step log us) vs := by
  induction us with
  | nil => intro log; rfl
  | cons u us ih => intro log; simp [runLog, ih]

theorem runLog_eq_append_flatten
    (step : List Word → List Char → List Word × List Word)
    (hstep : ∀ l u, (step l u).1 = l ++ (step l u).2) (us : List (List Char)) :
    ∀ log, runLog step log us = log ++ (runEmits step log us).flatten := by
  induction us with
  | nil => intro log; simp [runLog, runEmits]
  | cons u us ih =>
    intro log
    simp only [runLog, runEmits, List.flatten_cons]
    rw [ih, hstep, List.append_assoc]

theorem runLog_take_prefix
    (step : List Word → List Char → List Word × List Word)
    (hstep : ∀ l u, (step l u).1 = l ++ (step l u).2)
    (updates : List (List Char)) (k : Nat) :
    runLog step [] (updates.take k) <+: runLog step [] (updates.take (k + 1)) := by
  rw [List.take_succ, runLog_append]
  cases h : updates[k]? with
  | none => simp [runLog]
  | some u =>
    simp only [Option.toList, runLog]
    exact ⟨(step (runLog step [] (updates.take k)) u).2, (hstep _ u).symm⟩

/-- C1: for every sequence of hypothesis updates fed to the reconciler within
one session (committed log empty at session start), the committed log is
append-only — after each further call the previous log is a prefix of the new
one, so no committed word is removed or altered and the length is
non-decreasing — and the concatenation, in call order, of the word sequences
emitted by the reconcile calls equals the final contents of the log.  Proved
for both reconciler variants of the source: the batch loop (`reconcile`) and
the interactive `typeNewWords`. -/
theorem reconciler_monotone_emit_once :
    (∀ (updates : List (List Char)) (k : Nat),
        runLog reconcile [] (updates.take k) <+: runLog reconcile [] (updates.take (k + 1))) ∧
    (∀ updates : List (List Char),
        runLog reconcile [] updates = (runEmits reconcile [] updates).flatten) ∧
    (∀ (updates : List (List Char)) (k : Nat),
        runLog typeNewWords [] (updates.take k) <+:
          runLog typeNewWords [] (updates.take (k + 1))) ∧
    (∀ updates : List (List Char),
        runLog typeNewWords [] updates = (runEmits typeNewWords [] updates).flatten) := by
  refine ⟨fun updates k => runLog_take_prefix _ reconcile_fst updates k,
          fun updates => by simpa using runLog_eq_append_flatten _ reconcile_fst updates [],
          fun updates k => runLog_take_prefix _ typeNewWords_fst updates k,
          fun updates => by simpa using runLog_eq_append_flatten _ typeNewWords_fst updates []⟩

/-- C2 counterexample: with committed log `["the","cat"]` and update text
`"the cat cat sat"`, the batch reconciler emits exactly `["sat"]`, but the
committed length advances to `3`, not by `len(W) - N = 2` positions to `4`:
a skipped position does not advance the committed index, contradicting the
claim that the index advances by `len(W) - N` regardless of skips. -/
theorem reconcile_advance_counterexample :
    (reconcile ["the".toList, "cat".toList] "the cat cat sat".toList).2 = ["sat".toList] ∧
    ¬ (reconcile ["the".toList, "cat".toList] "the cat cat sat".toList).1.length =
        ["the".toList, "cat".toList].length +
          ((splitWords "the cat cat sat".toList).length -
            ["the".toList, "cat".toList].length) := by
  decide

/-- C2 amended: for every reconcile call of the batch loop, each candidate
word in `W[N..]` equal to the immediately preceding committed word is skipped
(not emitted) and the others are appended and emitted — the emitted sequence
is exactly the spec's skip-fold over the candidates — and the committed log
grows by exactly the emitted words (skipped positions do not advance the
committed index and may be offered again on a later, longer update); with
committed log `["the","cat"]` and update text `"the cat cat sat"`, reconcile
emits exactly `["sat"]`. -/
theorem reconcile_skip_characterization :
    (∀ (log : List Word) (text : List Char),
        (reconcile log text).2 =
          specSkipCommit log.getLast? ((splitWords text).drop log.length) ∧
        (reconcile log text).1 = log ++ (reconcile log text).2) ∧
    (reconcile ["the".toList, "cat".toList] "the cat cat sat".toList).2 =
      ["sat".toList] := by
  refine ⟨fun log text => ⟨commitLoop_snd_eq_spec _ log, reconcile_fst log text⟩, by decide⟩

/-- C3: whenever the update's word count is at most the committed length,
`typeNewWords` emits nothing and leaves the log unchanged; consequently
feeding the identical update twice in a row emits words only on the first
call — the second call returns the unchanged log and emits nothing. -/
theorem typeNewWords_shorter_noop_idempotent :
    (∀ (log : List Word) (text : List Char),
        (splitWords text).length ≤ log.length → typeNewWords log text = (log, [])) ∧
    (∀ (log : List Word) (text : List Char),
        typeNewWords (typeNewWords log text).1 text = ((typeNewWords log text).1, [])) := by
  constructor
  · intro log text h
    simp [typeNewWords, Nat.not_lt.2 h]
  · intro log text
    by_cases h : log.length < (splitWords text).length
    · have hlen : (log ++ (splitWords text).drop log.length).length =
          (splitWords text).length := by
        simp [List.length_drop]
        omega
      simp [typeNewWords, h, hlen]
    · simp [typeNewWords, h]

/-- Witness for C3 at a concrete input: committed log `["hello","world"]`,
update `"hello there"` (two words, not more than two committed). -/
theorem typeNewWords_shorter_noop_witness :
    typeNewWords ["hello".toList, "world".toList] "hello there".toList =
      (["hello".toList, "world".toList], []) :=
  typeNewWords_shorter_noop_idempotent.1 _ _ (by decide)

/-!
## Theorems: `removeDuplicates` (C10)
-/

theorem splitOnSpace_ne_nil (l : List Char) : splitOnSpace l ≠ [] := by
  cases l with
  | nil => simp [splitOnSpace]
  | cons c cs =>
    simp only [splitOnSpace]
    split
    · simp
    · split <;> simp

theorem no_space_of_mem_splitOnSpace (l : List Char) :
    ∀ t ∈ splitOnSpace l, ' ' ∉ t := by
  induction l with
  | nil => intro t ht; simp [splitOnSpace] at ht; simp [ht]
  | cons c cs ih =>
    intro t ht
    rcases hsp : splitOnSpace cs with _ | ⟨u, us⟩
    · exact absurd hsp (splitOnSpace_ne_nil cs)
    by_cases hc : c = ' '
    · simp only [splitOnSpace, if_pos hc] at ht
      rcases List.mem_cons.1 ht with h | h
      · subst h; simp
      · exact ih t h
    · simp only [splitOnSpace, if_neg hc, hsp] at ht
      rcases List.mem_cons.1 ht with h | h
      · subst h
        intro hmem
        rcases List.mem_cons.1 hmem with h2 | h2
        · exact hc h2.symm
        · exact ih u (by rw [hsp]; simp) h2
      · exact ih t (by rw [hsp]; exact List.mem_cons_of_mem _ h)

theorem splitOnSpace_no_space (t : List Char) (ht : ' ' ∉ t) :
    splitOnSpace t = [t] := by
  induction t with
  | nil => rfl
  | cons c cs ih =>
    have hc : ¬ c = ' ' := fun h => ht (by simp [h])
    have hcs : ' ' ∉ cs := fun h => ht (by simp [h])
    simp only [splitOnSpace, if_neg hc, ih hcs]

theorem splitOnSpace_append_space (t r : List Char) (ht : ' ' ∉ t) :
    splitOnSpace (t ++ ' ' :: r) = t :: splitOnSpace r := by
  induction t with
  | nil => simp [splitOnSpace]
  | cons c cs ih =>
    have hc : ¬ c = ' ' := fun h => ht (by simp [h])
    have hcs : ' ' ∉ cs := fun h => ht (by simp [h])
    simp only [List.cons_append, splitOnSpace, if_neg hc]
    simp [ih hcs]

theorem splitOnSpace_joinSpace (ts : List (List Char)) (hne : ts ≠ [])
    (hns : ∀ t ∈ ts, ' ' ∉ t) : splitOnSpace (joinSpace ts) = ts := by
  induction ts with
  | nil => exact absurd rfl hne
  | cons t ts ih =>
    cases ts with
    | nil => exact splitOnSpace_no_space t (hns t (by simp))
    | cons u us =>
      have h1 : joinSpace (t :: u :: us) = t ++ ' ' :: joinSpace (u :: us) := rfl
      rw [h1, splitOnSpace_append_space t _ (hns t (by simp)),
        ih (by simp) (fun v hv => hns v (by simp [hv]))]

theorem dedupGo_eq_destutter' (ws : List (List Char)) :
    ∀ w, List.destutter' (· ≠ ·) w ws = w :: dedupGo w ws := by
  induction ws with
  | nil => intro w; rfl
  | cons b l ih =>
    intro w
    rw [List.destutter'_cons]
    by_cases h : w = b
    · subst h
      simp only [ne_eq, not_true_eq_false, if_false, dedupGo, if_pos rfl]
      exact ih w
    · simp only [ne_eq, h, not_false_eq_true, if_true, dedupGo]
      rw [if_neg (fun hbw => h hbw.symm), ih b]

theorem removeDuplicates_eq_destutter (l : List Char) :
    removeDuplicates l = joinSpace ((splitOnSpace l).destutter (· ≠ ·)) := by
  rcases hsp : splitOnSpace l with _ | ⟨w, ws⟩
  · exact absurd hsp (splitOnSpace_ne_nil l)
  · rw [removeDuplicates, hsp, List.destutter_cons', dedupGo_eq_destutter']

theorem splitOnSpace_removeDuplicates (l : List Char) :
    splitOnSpace (removeDuplicates l) = (splitOnSpace l).destutter (· ≠ ·) := by
  rw [removeDuplicates_eq_destutter]
  refine splitOnSpace_joinSpace _ ?_ ?_
  · rcases hsp : splitOnSpace l with _ | ⟨w, ws⟩
    · exact absurd hsp (splitOnSpace_ne_nil l)
    · rw [List.destutter_cons']
      rw [dedupGo_eq_destutter']
      simp
  · intro t ht
    exact no_space_of_mem_splitOnSpace l t
      ((List.destutter_sublist _ _).mem ht)

/-- C10: `removeDuplicates` returns the space-joined subsequence of the
input's space-split tokens that keeps the first token of each run of
consecutive equal tokens (`List.destutter (· ≠ ·)`); consequently the output's
tokens form a subsequence of the input's tokens with no two consecutive equal
tokens, and the operation is idempotent. -/
theorem removeDuplicates_spec :
    ∀ l : List Char,
      removeDuplicates l = joinSpace ((splitOnSpace l).destutter (· ≠ ·)) ∧
      (splitOnSpace (removeDuplicates l)).Sublist (splitOnSpace l) ∧
      (splitOnSpace (removeDuplicates l)).Chain' (· ≠ ·) ∧
      removeDuplicates (removeDuplicates l) = removeDuplicates l := by
  intro l
  refine ⟨removeDuplicates_eq_destutter l, ?_, ?_, ?_⟩
  · rw [splitOnSpace_removeDuplicates]
    exact List.destutter_sublist _ _
  · rw [splitOnSpace_removeDuplicates]
    exact List.destutter_is_chain' _ _
  · rw [removeDuplicates_eq_destutter (removeDuplicates l),
      splitOnSpace_removeDuplicates, List.destutter_idem,
      removeDuplicates_eq_destutter]

/-!
## Theorems: confidence filter (C5)
-/

/-- C5: a word is kept by `filterByConfidence` exactly when its confidence is
absent or not strictly below the threshold — i.e. dropped iff an aligned
confidence is present and strictly below the threshold — both for an explicit
threshold and for the configured default, which is `0.7`; and the final-text
pipeline finalizes tail words `["um","the","answer"]` with confidences
`[0.3, 0.9, 0.95]` at threshold `0.7` to `"The answer"`. -/
theorem filterByConfidence_spec :
    (∀ (ws : List WordResult) (m : ℚ),
        filterByConfidence ws (some m) = ws.filter (fun w => keptBySpec w m)) ∧
    (∀ ws : List WordResult,
        filterByConfidence ws none = ws.filter (fun w => keptBySpec w minConfidence)) ∧
    minConfidence = mkRat 7 10 ∧
    processFinalText
      [⟨"um".toList, some (mkRat 3 10)⟩, ⟨"the".toList, some (mkRat 9 10)⟩,
       ⟨"answer".toList, some (mkRat 95 100)⟩] [] = "The answer".toList := by
  have hpred : ∀ (m : ℚ) (w : WordResult),
      (match w.conf with
        | none => true
        | some c => decide (m ≤ c)) = keptBySpec w m := by
    intro m w
    rcases hconf : w.conf with _ | c
    · simp [keptBySpec, hconf]
    · simp only [keptBySpec, hconf]
      by_cases h : m ≤ c
      · simp [h, not_lt.2 h]
      · simp [h, lt_of_not_le h]
  refine ⟨?_, ?_, rfl, by decide⟩
  · intro ws m
    simp only [filterByConfidence, Option.getD_some]
    exact List.filter_congr fun w _ => hpred m w
  · intro ws
    simp only [filterByConfidence, Option.getD_none]
    exact List.filter_congr fun w _ => hpred minConfidence w

/-!
## Theorems: recording session state machine (C4, C6, C7, C9)
-/

/-- C4 counterexample: a stop signal during `Draining` is not a no-op.  In
the trace below, F9 stops the session twice during one grace window; the
first drain timeout finalizes the session, the user starts a new session,
and the leftover second timeout then fires and terminates the new session
(recorder stopped, recognizer finalized, `isRecording` cleared) even though
no stop was issued for it.  Without the extra stop the new session is still
recording. -/
theorem stop_during_draining_counterexample :
    (runEvents initialState
        [.start, .stop, .stop, .drain (.jstr "hello".toList), .start,
         .drain (.jstr "x".toList)]).isRecording = false ∧
    (runEvents initialState
        [.start, .stop, .drain (.jstr "hello".toList), .start]).isRecording = true ∧
    runEvents initialState
        [.start, .stop, .stop, .drain (.jstr "hello".toList), .start,
         .drain (.jstr "x".toList)] ≠
      runEvents initialState
        [.start, .stop, .drain (.jstr "hello".toList), .start] := by
  decide

/-- C4 amended: a start signal outside `Idle` is an exact no-op, and a stop
signal in `Idle` is an exact no-op; but a stop signal while `isRecording` —
including during `Draining` — sets the displayed status and schedules one
more drain timeout, leaving the committed log, the recognizer, the recorder
and the recording flag unchanged; a leftover timeout that fires on an
already-drained session (recorder and recognizer released, recording flag
clear, waveform cleared) changes nothing but the pending count.  The
leftover timeout of an extra stop can therefore still terminate a
subsequently started session, as the counterexample shows. -/
theorem signal_guard_behavior :
    ∀ s : AppState,
      (s.isRecording = true → startRecording s = s) ∧
      (s.isRecording = false → stopRecording s = s) ∧
      (s.isRecording = true →
        stopRecording s =
          { s with status := .processing, pendingStops := s.pendingStops + 1 }) ∧
      (∀ v, s.hasRecorder = false → s.hasRecognizer = false → s.isRecording = false →
        s.audioData = [] →
        drainFire v s = { s with pendingStops := s.pendingStops - 1 }) := by
  intro s
  refine ⟨fun h => by simp [startRecording, h], fun h => by simp [stopRecording, h],
    fun h => by simp [stopRecording, h], ?_⟩
  intro v hrcd hrcg hrec had
  rcases hps : s.pendingStops with _ | n
  · cases s
    simp_all [drainFire]
  · cases s
    cases v <;> simp_all [drainFire]

/-- Witness for C4 (amended) at concrete states: a second start while
recording is ignored, a stop in the initial idle state is ignored, and a
leftover drain timeout on the drained idle state only consumes the pending
count. -/
theorem signal_guard_behavior_witness :
    startRecording (startRecording initialState) = startRecording initialState ∧
    stopRecording initialState = initialState ∧
    drainFire .jnull initialState = initialState :=
  ⟨(signal_guard_behavior (startRecording initialState)).1 (by decide),
   (signal_guard_behavior initialState).2.1 (by decide),
   by
    have h := (signal_guard_behavior initialState).2.2.2 .jnull (by decide) (by decide)
      (by decide) (by decide)
    simpa using h⟩

/-- C6: a stop signal does not stop audio capture — the recorder, the
recognizer and the committed log are untouched, only the status display and
the pending drain timeout change; while the drain timeout is pending, an
audio chunk is processed exactly as in `Recording` (the handler commutes
with the stop, and emits the same words); the grace window is the fixed
constant 2000 ms (both the `setTimeout` literal and
`config.recognition.bufferTime`); and only the drain timeout stops capture,
takes the engine's final hypothesis and finalizes, after which the recorder
and recognizer are released and recording is over. -/
theorem stop_grace_window_behavior :
    ∀ (s : AppState) (a : ℚ) (p v : JsVal),
      s.isRecording = true →
      ((stopRecording s).hasRecorder = s.hasRecorder ∧
       (stopRecording s).hasRecognizer = s.hasRecognizer ∧
       (stopRecording s).typedWords = s.typedWords ∧
       (stopRecording s).isRecording = true) ∧
      ((handleChunk a p (stopRecording s)).1 =
          stopRecording (handleChunk a p s).1 ∧
       (handleChunk a p (stopRecording s)).2 = (handleChunk a p s).2) ∧
      (voskGraceWindowMs = 2000 ∧ configBufferTime = 2000) ∧
      ((drainFire v (stopRecording s)).hasRecorder = false ∧
       (drainFire v (stopRecording s)).hasRecognizer = false ∧
       (drainFire v (stopRecording s)).isRecording = false) := by
  intro s a p v hrec
  cases s with
  | mk rec rcg rcd tw ad lht st ps =>
    simp only [AppState.isRecording] at hrec
    subst hrec
    refine ⟨by simp [stopRecording], ?_, ⟨rfl, rfl⟩, ?_⟩
    · cases p <;>
        (simp only [handleChunk, stopRecording, if_true]) <;>
        cases rcg <;>
        (first
          | (simp; split_ifs <;> simp_all)
          | (simp; try simp_all))
    · cases v <;> cases rcg <;> (simp [drainFire, stopRecording]; try (split_ifs <;> simp))

/-- Witness for C6 at a concrete input: the freshly started session, one
chunk carrying partial text `"hi"`, final text `"hi there"`. -/
theorem stop_grace_window_behavior_witness :
    (handleChunk 0 (.jstr "hi".toList) (stopRecording (startRecording initialState))).2 =
      (handleChunk 0 (.jstr "hi".toList) (startRecording initialState)).2 ∧
    (drainFire (.jstr "hi there".toList)
        (stopRecording (startRecording initialState))).isRecording = false :=
  ⟨((stop_grace_window_behavior (startRecording initialState) 0 (.jstr "hi".toList)
      (.jstr "hi there".toList) (by decide)).2.1).2,
   ((stop_grace_window_behavior (startRecording initialState) 0 (.jstr "hi".toList)
      (.jstr "hi there".toList) (by decide)).2.2.2).2.2⟩

/-- C7 counterexample: after a full Idle→Recording→Draining→Processing→Idle
cycle in which the partial `"hi"` was typed, the partial-text tracker still
holds `"hi"` — the transient session buffers are not all cleared at cycle
end (the tracker is only reset at the next session start). -/
theorem session_cycle_counterexample :
    (runEvents initialState
        [.start, .chunk 0 (.jstr "hi".toList), .stop,
         .drain (.jstr "hi".toList)]).isRecording = false ∧
    (runEvents initialState
        [.start, .chunk 0 (.jstr "hi".toList), .stop,
         .drain (.jstr "hi".toList)]).lastHypText ≠ [] := by
  decide

/-- C7 amended: every Idle→Recording transition resets the committed word
log to empty, clears the waveform buffer and the partial-text tracker, and
acquires a fresh recognizer; and a drain timeout firing returns the session
to a non-recording state with the waveform audio buffer cleared and the
recorder and recognizer released — but the partial-text tracker keeps its
last value until the next session start (see the counterexample). -/
theorem session_reset_and_cycle :
    ∀ (s : AppState) (v : JsVal),
      (s.isRecording = false →
        ((startRecording s).typedWords = [] ∧
         (startRecording s).lastHypText = [] ∧
         (startRecording s).audioData = [] ∧
         (startRecording s).hasRecognizer = true ∧
         (startRecording s).hasRecorder = true ∧
         (startRecording s).isRecording = true)) ∧
      (s.pendingStops ≠ 0 →
        ((drainFire v s).isRecording = false ∧
         (drainFire v s).audioData = [] ∧
         (drainFire v s).hasRecorder = false ∧
         (drainFire v s).hasRecognizer = false)) := by
  intro s v
  constructor
  · intro h
    simp [startRecording, h]
  · intro hps
    cases s with
    | mk rec rcg rcd tw ad lht st ps =>
      cases v <;> cases rcg <;>
        (simp only [drainFire]; simp_all; try (split_ifs <;> simp))

/-- Witness for C7 (amended) at a concrete input: the initial state is idle,
so a start resets the session; the freshly stopped session has a pending
drain, so the drain returns it to idle with buffers cleared. -/
theorem session_reset_and_cycle_witness :
    (startRecording initialState).typedWords = [] ∧
    (drainFire (.jstr "hi".toList)
        (stopRecording (startRecording initialState))).isRecording = false :=
  ⟨((session_reset_and_cycle initialState (.jstr "hi".toList)).1 (by decide)).1,
   ((session_reset_and_cycle (stopRecording (startRecording initialState))
      (.jstr "hi".toList)).2 (by decide)).1⟩

/-- C9: a malformed hypothesis value — `null` or a non-string — behaves as
an empty update: the chunk handler commits no words, emits nothing and
leaves the committed log unchanged, and a malformed final result types no
words.  In the source the truthiness guard rejects `null` and the
`try`/`catch` swallows the exception thrown by `.trim()` on a non-string, so
no exception escapes; the model is a total function accordingly. -/
theorem malformed_hypothesis_noop :
    ∀ (s : AppState) (a : ℚ),
      ((handleChunk a .jnull s).1.typedWords = s.typedWords ∧
       (handleChunk a .jnull s).2 = []) ∧
      (∀ q, (handleChunk a (.jnum q) s).1.typedWords = s.typedWords ∧
            (handleChunk a (.jnum q) s).2 = []) ∧
      (∀ b, (handleChunk a (.jbool b) s).1.typedWords = s.typedWords ∧
            (handleChunk a (.jbool b) s).2 = []) ∧
      ((drainFire .jnull s).typedWords = s.typedWords ∧
       (∀ q, (drainFire (.jnum q) s).typedWords = s.typedWords) ∧
       (∀ b, (drainFire (.jbool b) s).typedWords = s.typedWords)) := by
  intro s a
  have hchunk : ∀ v : JsVal, (∀ t, v ≠ .jstr t) →
      (handleChunk a v s).1.typedWords = s.typedWords ∧ (handleChunk a v s).2 = [] := by
    intro v hv
    cases v with
    | jstr t => exact absurd rfl (hv t)
    | jnull => simp [handleChunk]; split_ifs <;> simp
    | jnum q => simp [handleChunk]; split_ifs <;> simp
    | jbool b => simp [handleChunk]; split_ifs <;> simp
  have hdrain : ∀ v : JsVal, (∀ t, v ≠ .jstr t) →
      (drainFire v s).typedWords = s.typedWords := by
    intro v hv
    cases v with
    | jstr t => exact absurd rfl (hv t)
    | jnull => simp [drainFire]; split_ifs <;> simp
    | jnum q => simp [drainFire]; split_ifs <;> simp
    | jbool b => simp [drainFire]; split_ifs <;> simp
  exact ⟨hchunk .jnull (by intro t h; cases h),
    fun q => hchunk (.jnum q) (by intro t h; cases h),
    fun b => hchunk (.jbool b) (by intro t h; cases h),
    hdrain .jnull (by intro t h; cases h),
    fun q => hdrain (.jnum q) (by intro t h; cases h),
    fun b => hdrain (.jbool b) (by intro t h; cases h)⟩

theorem char_eq_iff_toNat {c d : Char} : c = d ↔ c.toNat = d.toNat := by
  constructor
  · intro h; rw [h]
  · intro h
    have h2 := congrArg Char.ofNat h
    rwa [Char.ofNat_toNat, Char.ofNat_toNat] at h2

theorem toNat_ofNat_small {n : Nat} (h : n < 55296) : (Char.ofNat n).toNat = n := by
  have hv : n.isValidChar := Or.inl h
  rw [Char.ofNat, dif_pos hv]
  simp [Char.ofNatAux, Char.toNat, UInt32.toNat]

theorem toNat_toUpper (c : Char) :
    (Char.toUpper c).toNat =
      if 97 ≤ c.toNat ∧ c.toNat ≤ 122 then c.toNat - 32 else c.toNat := by
  rw [Char.toUpper]
  by_cases h : 97 ≤ c.toNat ∧ c.toNat ≤ 122
  · rw [if_pos h, if_pos h, toNat_ofNat_small (by omega)]
  · rw [if_neg h, if_neg h]

theorem toNat_toLower (c : Char) :
    (Char.toLower c).toNat =
      if 65 ≤ c.toNat ∧ c.toNat ≤ 90 then c.toNat + 32 else c.toNat := by
  rw [Char.toLower]
  by_cases h : 65 ≤ c.toNat ∧ c.toNat ≤ 90
  · rw [if_pos h, if_pos h, toNat_ofNat_small (by omega)]
  · rw [if_neg h, if_neg h]

theorem uint32_le_iff {a b : UInt32} : a ≤ b ↔ a.toNat ≤ b.toNat :=
  ⟨fun h => h, fun h => h⟩

theorem isLower_iff {c : Char} : c.isLower = true ↔ 97 ≤ c.toNat ∧ c.toNat ≤ 122 := by
  simp only [Char.isLower, ge_iff_le, Bool.and_eq_true, decide_eq_true_eq, uint32_le_iff]
  exact Iff.rfl

theorem isUpper_iff {c : Char} : c.isUpper = true ↔ 65 ≤ c.toNat ∧ c.toNat ≤ 90 := by
  simp only [Char.isUpper, ge_iff_le, Bool.and_eq_true, decide_eq_true_eq, uint32_le_iff]
  exact Iff.rfl

theorem isDigit_iff {c : Char} : c.isDigit = true ↔ 48 ≤ c.toNat ∧ c.toNat ≤ 57 := by
  simp only [Char.isDigit, ge_iff_le, Bool.and_eq_true, decide_eq_true_eq, uint32_le_iff]
  exact Iff.rfl

theorem isWs_iff {c : Char} :
    isWs c = true ↔ c.toNat = 32 ∨ c.toNat = 9 ∨ c.toNat = 10 ∨ c.toNat = 13 := by
  simp only [isWs, Bool.or_eq_true, decide_eq_true_eq, char_eq_iff_toNat,
    show ' '.toNat = 32 from rfl, show '\t'.toNat = 9 from rfl,
    show '\n'.toNat = 10 from rfl, show '\r'.toNat = 13 from rfl]
  tauto

theorem isPunctSE_iff {c : Char} :
    isPunctSE c = true ↔ c.toNat = 46 ∨ c.toNat = 33 ∨ c.toNat = 63 := by
  simp only [isPunctSE, Bool.or_eq_true, decide_eq_true_eq, char_eq_iff_toNat,
    show '.'.toNat = 46 from rfl, show '!'.toNat = 33 from rfl,
    show '?'.toNat = 63 from rfl]
  tauto

theorem isWordChar_iff {c : Char} :
    isWordChar c = true ↔
      (65 ≤ c.toNat ∧ c.toNat ≤ 90) ∨ (97 ≤ c.toNat ∧ c.toNat ≤ 122) ∨
      (48 ≤ c.toNat ∧ c.toNat ≤ 57) ∨ c.toNat = 95 := by
  simp only [isWordChar, Char.isAlpha, Bool.or_eq_true, isLower_iff, isUpper_iff,
    isDigit_iff, decide_eq_true_eq, char_eq_iff_toNat,
    show '_'.toNat = 95 from rfl]
  tauto


theorem bool_eq_iff {a b : Bool} : a = b ↔ (a = true ↔ b = true) := by
  cases a <;> cases b <;> simp

theorem toUpper_eq_self {c : Char} (h : c.isLower = false) : Char.toUpper c = c := by
  rw [char_eq_iff_toNat, toNat_toUpper, if_neg]
  intro hc
  rw [← Bool.not_eq_true, isLower_iff] at h
  exact h hc

theorem toLower_eq_self {c : Char} (h : c.isUpper = false) : Char.toLower c = c := by
  rw [char_eq_iff_toNat, toNat_toLower, if_neg]
  intro hc
  rw [← Bool.not_eq_true, isUpper_iff] at h
  exact h hc

theorem isWs_toUpper (c : Char) : isWs (Char.toUpper c) = isWs c := by
  rw [bool_eq_iff, isWs_iff, isWs_iff, toNat_toUpper]
  split_ifs <;> omega

theorem isWs_toLower (c : Char) : isWs (Char.toLower c) = isWs c := by
  rw [bool_eq_iff, isWs_iff, isWs_iff, toNat_toLower]
  split_ifs <;> omega

theorem isPunctSE_toUpper (c : Char) : isPunctSE (Char.toUpper c) = isPunctSE c := by
  rw [bool_eq_iff, isPunctSE_iff, isPunctSE_iff, toNat_toUpper]
  split_ifs <;> omega

theorem isPunctSE_toLower (c : Char) : isPunctSE (Char.toLower c) = isPunctSE c := by
  rw [bool_eq_iff, isPunctSE_iff, isPunctSE_iff, toNat_toLower]
  split_ifs <;> omega

theorem isWordChar_toUpper (c : Char) : isWordChar (Char.toUpper c) = isWordChar c := by
  rw [bool_eq_iff, isWordChar_iff, isWordChar_iff, toNat_toUpper]
  split_ifs <;> omega

theorem isWordChar_toLower (c : Char) : isWordChar (Char.toLower c) = isWordChar c := by
  rw [bool_eq_iff, isWordChar_iff, isWordChar_iff, toNat_toLower]
  split_ifs <;> omega

theorem toLower_toUpper (c : Char) : (Char.toUpper c).toLower = c.toLower := by
  rw [char_eq_iff_toNat]
  simp only [toNat_toLower, toNat_toUpper]
  split_ifs <;> omega

theorem toLower_toLower (c : Char) : (Char.toLower c).toLower = c.toLower := by
  rw [char_eq_iff_toNat]
  simp only [toNat_toLower]
  split_ifs <;> omega

theorem toUpper_toUpper (c : Char) : (Char.toUpper c).toUpper = c.toUpper := by
  rw [char_eq_iff_toNat]
  simp only [toNat_toUpper]
  split_ifs <;> omega

theorem toUpper_toLower (c : Char) : (Char.toLower c).toUpper = c.toUpper := by
  rw [char_eq_iff_toNat]
  simp only [toNat_toUpper, toNat_toLower]
  split_ifs <;> omega

theorem isLower_toUpper (c : Char) : (Char.toUpper c).isLower = false := by
  rw [← Bool.not_eq_true, isLower_iff, toNat_toUpper]
  split_ifs <;> omega

theorem toUpper_ne_i (c : Char) : Char.toUpper c ≠ 'i' := by
  intro h
  rw [char_eq_iff_toNat, toNat_toUpper, show ('i').toNat = 105 from rfl] at h
  split_ifs at h <;> omega

theorem not_ws_of_isWordChar {c : Char} (h : isWordChar c = true) : isWs c = false := by
  rw [isWordChar_iff] at h
  rw [← Bool.not_eq_true, isWs_iff]
  omega

theorem not_ws_of_isPunctSE {c : Char} (h : isPunctSE c = true) : isWs c = false := by
  rw [isPunctSE_iff] at h
  rw [← Bool.not_eq_true, isWs_iff]
  omega

theorem not_punct_of_isWs {c : Char} (h : isWs c = true) : isPunctSE c = false := by
  rw [isWs_iff] at h
  rw [← Bool.not_eq_true, isPunctSE_iff]
  omega

theorem isWordChar_of_toLower_lower {c : Char} (h : (Char.toLower c).isLower = true) :
    isWordChar c = true := by
  rw [isLower_iff, toNat_toLower] at h
  rw [isWordChar_iff]
  split_ifs at h <;> omega

theorem length_capFirst (l : List Char) : (capFirst l).length = l.length := by
  cases l <;> rfl

theorem length_capAfterPunct : ∀ (l : List Char) (st : PunctSt),
    (capAfterPunct st l).length = l.length := by
  intro l
  induction l with
  | nil => intro st; rfl
  | cons c cs ih => intro st; simp [capAfterPunct, ih]

theorem length_capIGo : ∀ (l : List Char) (pw : Bool),
    (capIGo pw l).length = l.length := by
  intro l
  induction l with
  | nil => intro pw; rfl
  | cons c cs ih =>
    intro pw
    simp only [capIGo]
    split <;> simp [ih]

theorem capFirst_getElem? (l : List Char) (i : Nat) :
    (capFirst l)[i]? = if i = 0 then (l[0]?).map Char.toUpper else l[i]? := by
  cases l <;> cases i <;> simp [capFirst]

theorem capAfterPunct_getElem? : ∀ (l : List Char) (st : PunctSt) (i : Nat),
    (capAfterPunct st l)[i]? = (l[i]?).map (fun c =>
      if ((l.take i).foldl punctStep st = .seenPunctWs) && c.isLower then Char.toUpper c
      else c) := by
  intro l
  induction l with
  | nil => intro st i; simp [capAfterPunct]
  | cons c cs ih =>
    intro st i
    cases i with
    | zero => simp [capAfterPunct]
    | succ i =>
      simp only [capAfterPunct, List.getElem?_cons_succ, List.take_succ_cons, List.foldl_cons]
      exact ih (punctStep st c) i

theorem getD_eq_getElem? (l : List Char) (i : Nat) (d : Char) :
    l.getD i d = (l[i]?).getD d := by
  simp [List.getD]

theorem punctStateAt_succ (s : List Char) (i : Nat) (h : i < s.length) :
    punctStateAt s (i + 1) = punctStep (punctStateAt s i) (s.getD i ' ') := by
  have hi : s[i]? = some (s.getD i ' ') := by
    rw [getD_eq_getElem?, List.getElem?_eq_getElem h]
    rfl
  rw [punctStateAt, punctStateAt, List.take_succ, hi]
  simp

theorem wsRunBefore_le (s : List Char) : ∀ i, wsRunBefore s i ≤ i := by
  intro i
  induction i with
  | zero => simp [wsRunBefore]
  | succ i ih =>
    simp only [wsRunBefore]
    split <;> omega

theorem wsRunBefore_pos {s : List Char} {i : Nat} (h : 0 < wsRunBefore s i) :
    0 < i ∧ isWs (s.getD (i - 1) ' ') = true := by
  cases i with
  | zero => simp [wsRunBefore] at h
  | succ i =>
    simp only [wsRunBefore] at h
    constructor
    · omega
    · by_cases hw : isWs (s.getD i ' ')
      · simpa using hw
      · rw [if_neg hw] at h
        omega

theorem punctCtx_eq_true_iff {s : List Char} {i : Nat} :
    punctCtx s i = true ↔
      0 < wsRunBefore s i ∧ wsRunBefore s i + 1 ≤ i ∧
        isPunctSE (s.getD (i - wsRunBefore s i - 1) ' ') = true := by
  simp [punctCtx, Bool.and_eq_true, and_assoc]

theorem punctStep_punct {st : PunctSt} {c : Char} (hp : isPunctSE c = true) :
    punctStep st c = .seenPunct := by
  unfold punctStep
  rw [if_pos hp]

theorem punctStep_ws {st : PunctSt} {c : Char} (hp : isPunctSE c = false)
    (hw : isWs c = true) :
    punctStep st c =
      match st with
      | .clear => .clear
      | .seenPunct => .seenPunctWs
      | .seenPunctWs => .seenPunctWs := by
  unfold punctStep
  rw [if_neg (by rw [hp]; simp), if_pos hw]

theorem punctStep_other {st : PunctSt} {c : Char} (hp : isPunctSE c = false)
    (hw : isWs c = false) : punctStep st c = .clear := by
  unfold punctStep
  rw [if_neg (by rw [hp]; simp), if_neg (by rw [hw]; simp)]

theorem wsRunBefore_succ (s : List Char) (i : Nat) :
    wsRunBefore s (i + 1) =
      if isWs (s.getD i ' ') then wsRunBefore s i + 1 else 0 := rfl

theorem wsRunBefore_succ_ws {s : List Char} {i : Nat}
    (hw : isWs (s.getD i ' ') = true) :
    wsRunBefore s (i + 1) = wsRunBefore s i + 1 := by
  rw [wsRunBefore_succ, if_pos hw]

theorem wsRunBefore_succ_not_ws {s : List Char} {i : Nat}
    (hw : isWs (s.getD i ' ') = false) : wsRunBefore s (i + 1) = 0 := by
  rw [wsRunBefore_succ, if_neg (by rw [hw]; simp)]

theorem punctStateAt_spec (s : List Char) : ∀ i, i ≤ s.length →
    (punctStateAt s i = .seenPunct ↔
      0 < i ∧ isPunctSE (s.getD (i - 1) ' ') = true) ∧
    (punctStateAt s i = .seenPunctWs ↔ punctCtx s i = true) := by
  intro i
  induction i with
  | zero =>
    intro _
    constructor
    · simp [punctStateAt]
    · simp [punctStateAt, punctCtx, wsRunBefore]
  | succ i ih =>
    intro hle
    have hi : i < s.length := by omega
    have ihs := ih (by omega)
    have hple : wsRunBefore s i ≤ i := wsRunBefore_le s i
    have hidx : i + 1 - 1 = i := by omega
    rw [punctStateAt_succ s i hi]
    cases hp : isPunctSE (s.getD i ' ') with
    | true =>
      have hw : isWs (s.getD i ' ') = false := not_ws_of_isPunctSE hp
      have hr : wsRunBefore s (i + 1) = 0 := wsRunBefore_succ_not_ws hw
      rw [punctStep_punct hp]
      constructor
      · exact iff_of_true rfl ⟨by omega, by rw [hidx]; exact hp⟩
      · refine iff_of_false (by simp) ?_
        intro h
        rw [punctCtx_eq_true_iff, hr] at h
        omega
    | false =>
      cases hw : isWs (s.getD i ' ') with
      | true =>
        have hr : wsRunBefore s (i + 1) = wsRunBefore s i + 1 := wsRunBefore_succ_ws hw
        have hne : isPunctSE (s.getD (i + 1 - 1) ' ') = false := by rw [hidx]; exact hp
        rw [punctStep_ws hp hw]
        cases hst : punctStateAt s i with
        | clear =>
          constructor
          · exact iff_of_false (by simp) (fun h => by rw [hne] at h; cases h.2)
          · refine iff_of_false (by simp) ?_
            intro h
            rw [punctCtx_eq_true_iff, hr] at h
            by_cases hr0 : wsRunBefore s i = 0
            · rw [hr0] at h
              have hidx2 : i + 1 - (0 + 1) - 1 = i - 1 := by omega
              rw [hidx2] at h
              have hcon := ihs.1.mpr ⟨by omega, h.2.2⟩
              rw [hst] at hcon
              cases hcon
            · have hidx2 : i + 1 - (wsRunBefore s i + 1) - 1 =
                  i - wsRunBefore s i - 1 := by omega
              rw [hidx2] at h
              have hcon := ihs.2.mpr
                (punctCtx_eq_true_iff.mpr ⟨by omega, by omega, h.2.2⟩)
              rw [hst] at hcon
              cases hcon
        | seenPunct =>
          have hprev := ihs.1.mp hst
          have hr0 : wsRunBefore s i = 0 := by
            by_contra hr0
            have hpos := wsRunBefore_pos (Nat.pos_of_ne_zero hr0)
            rw [not_punct_of_isWs hpos.2] at hprev
            cases hprev.2
          constructor
          · exact iff_of_false (by simp) (fun h => by rw [hne] at h; cases h.2)
          · refine iff_of_true rfl ?_
            rw [punctCtx_eq_true_iff, hr, hr0]
            have hidx2 : i + 1 - (0 + 1) - 1 = i - 1 := by omega
            rw [hidx2]
            exact ⟨by omega, by omega, hprev.2⟩
        | seenPunctWs =>
          have hprev := punctCtx_eq_true_iff.mp (ihs.2.mp hst)
          constructor
          · exact iff_of_false (by simp) (fun h => by rw [hne] at h; cases h.2)
          · refine iff_of_true rfl ?_
            rw [punctCtx_eq_true_iff, hr]
            have hidx2 : i + 1 - (wsRunBefore s i + 1) - 1 =
                i - wsRunBefore s i - 1 := by omega
            rw [hidx2]
            exact ⟨by omega, by omega, hprev.2.2⟩
      | false =>
        have hr : wsRunBefore s (i + 1) = 0 := wsRunBefore_succ_not_ws hw
        have hne : isPunctSE (s.getD (i + 1 - 1) ' ') = false := by rw [hidx]; exact hp
        rw [punctStep_other hp hw]
        constructor
        · exact iff_of_false (by simp) (fun h => by rw [hne] at h; cases h.2)
        · refine iff_of_false (by simp) ?_
          intro h
          rw [punctCtx_eq_true_iff, hr] at h
          omega

theorem nextIsWordChar_eq_getD (cs : List Char) :
    nextIsWordChar cs = isWordChar (cs.getD 0 ' ') := by
  cases cs with
  | nil => decide
  | cons d ds => rfl

theorem getElem?_zero_ite_cons {b : Bool} {x y : Char} {xs ys : List Char} :
    (if b = true then x :: xs else y :: ys)[0]? = some (if b = true then x else y) := by
  cases b <;> simp

theorem capIGo_getElem? : ∀ (l : List Char) (pw : Bool) (i : Nat),
    (capIGo pw l)[i]? = (l[i]?).map (fun c =>
      if c = 'i' && !(if i = 0 then pw else isWordChar (l.getD (i - 1) ' ')) &&
          !isWordChar (l.getD (i + 1) ' ')
        then 'I' else c) := by
  intro l
  induction l with
  | nil => intro pw i; simp [capIGo]
  | cons c cs ih =>
    intro pw i
    cases i with
    | zero =>
      simp only [capIGo]
      rw [getElem?_zero_ite_cons]
      simp only [List.getElem?_cons_zero, Option.map_some']
      congr 1
      by_cases h1 : c = 'i' <;> by_cases h2 : pw <;>
        by_cases h3 : isWordChar (cs.getD 0 ' ') <;>
        simp [h1, h2, h3, nextIsWordChar_eq_getD]
    | succ i =>
      simp only [capIGo]
      split
      · next hg =>
        simp only [Bool.and_eq_true, Bool.not_eq_true', decide_eq_true_eq] at hg
        simp only [List.getElem?_cons_succ]
        rw [ih true i]
        congr 1
        funext d
        have h1 : isWordChar c = true := by rw [hg.1.1]; decide
        cases i with
        | zero => simp [h1]
        | succ j => simp
      · next hg =>
        simp only [List.getElem?_cons_succ]
        rw [ih (isWordChar c) i]
        congr 1
        funext d
        cases i with
        | zero => simp
        | succ j => simp

theorem getD_eq_getElem?_char (l : List Char) (i : Nat) (d : Char) :
    l.getD i d = (l[i]?).getD d := by
  simp [List.getD]

theorem getD_drop_char (l : List Char) (n k : Nat) :
    (l.drop n).getD k ' ' = l.getD (n + k) ' ' := by
  rw [getD_eq_getElem?_char, getD_eq_getElem?_char, List.getElem?_drop]

theorem list_eq_of_getD {A B : List Char} (hlen : A.length = B.length)
    (h : ∀ k, k < A.length → A.getD k ' ' = B.getD k ' ') : A = B := by
  apply List.ext_getElem hlen
  intro k h1 h2
  have := h k h1
  rwa [List.getD_eq_getElem A ' ' h1, List.getD_eq_getElem B ' ' h2] at this

theorem map_toLower_take_eq_iff : ∀ (noun l : List Char),
    ((l.take noun.length).map Char.toLower = noun) ↔
      (noun.length ≤ l.length ∧
       ∀ k, k < noun.length → Char.toLower (l.getD k ' ') = noun.getD k ' ') := by
  intro noun
  induction noun with
  | nil => intro l; simp
  | cons x ns ih =>
    intro l
    cases l with
    | nil =>
      simp only [List.length_cons, List.take_nil, List.map_nil]
      constructor
      · intro h; cases h
      · intro h
        exfalso
        have := h.1
        simp at this
    | cons c cs =>
      simp only [List.length_cons, List.take_succ_cons, List.map_cons, List.cons.injEq]
      rw [ih cs]
      constructor
      · rintro ⟨h1, h2, h3⟩
        refine ⟨by omega, ?_⟩
        intro k hk
        cases k with
        | zero => simpa using h1
        | succ j =>
          simp only [List.getD_cons_succ]
          exact h3 j (by omega)
      · rintro ⟨h1, h2⟩
        refine ⟨by simpa using h2 0 (by omega), by omega, ?_⟩
        intro k hk
        have := h2 (k + 1) (by omega)
        simpa using this

theorem ciWordMatch_iff {noun l : List Char} :
    ciWordMatch noun l = true ↔
      (noun.length ≤ l.length ∧
       (∀ k, k < noun.length → Char.toLower (l.getD k ' ') = noun.getD k ' ') ∧
       isWordChar (l.getD noun.length ' ') = false) := by
  simp only [ciWordMatch, Bool.and_eq_true, beq_iff_eq, decide_eq_true_eq,
    Bool.not_eq_true', nextIsWordChar_eq_getD, getD_drop_char, Nat.add_zero]
  rw [map_toLower_take_eq_iff]
  tauto

theorem occ_chars_word {noun l : List Char} {pw : Bool} {a : Nat}
    (hn : lowerAlphaNoun noun) (h : nounOccAtPW noun l pw a) :
    ∀ k, a ≤ k → k < a + noun.length → isWordChar (l.getD k ' ') = true := by
  intro k hk1 hk2
  have hc := h.2.1 (k - a) (by omega)
  have hke : a + (k - a) = k := by omega
  rw [hke] at hc
  have hmem : noun.getD (k - a) ' ' ∈ noun := by
    have : k - a < noun.length := by omega
    rw [List.getD_eq_getElem noun ' ' this]
    exact List.getElem_mem this
  have hlow := hn.2 _ hmem
  rw [← hc] at hlow
  exact isWordChar_of_toLower_lower hlow

theorem occ_overlap_le {A B l : List Char} {pw : Bool} {a b : Nat}
    (hA : lowerAlphaNoun A) (hB : lowerAlphaNoun B)
    (h1 : nounOccAtPW A l pw a) (h2 : nounOccAtPW B l pw b)
    (hab : a ≤ b) (hover : b < a + A.length) : a = b ∧ A = B := by
  have hBpos : 0 < B.length := List.length_pos.mpr hB.1
  have hApos : 0 < A.length := List.length_pos.mpr hA.1
  have hae : a = b := by
    by_contra hne
    have hb1 : b ≠ 0 := by omega
    have hword := occ_chars_word hA h1 (b - 1) (by omega) (by omega)
    have hbound := h2.2.2.1
    rw [if_neg hb1] at hbound
    rw [hword] at hbound
    cases hbound
  subst hae
  have hlen : A.length = B.length := by
    by_contra hne
    rcases Nat.lt_or_ge A.length B.length with hlt | hge
    · have hword := occ_chars_word hB h2 (a + A.length) (by omega) (by omega)
      have hbound := h1.2.2.2
      rw [hword] at hbound
      cases hbound
    · have hlt2 : B.length < A.length := by omega
      have hword := occ_chars_word hA h1 (a + B.length) (by omega) (by omega)
      have hbound := h2.2.2.2
      rw [hword] at hbound
      cases hbound
  refine ⟨rfl, ?_⟩
  apply list_eq_of_getD hlen
  intro k hk
  rw [← h1.2.1 k hk, ← h2.2.1 k (by omega)]

theorem occ_overlap {A B l : List Char} {pw : Bool} {a b : Nat}
    (hA : lowerAlphaNoun A) (hB : lowerAlphaNoun B)
    (h1 : nounOccAtPW A l pw a) (h2 : nounOccAtPW B l pw b)
    (hov1 : a < b + B.length) (hov2 : b < a + A.length) : a = b ∧ A = B := by
  rcases Nat.le_total a b with hab | hba
  · exact occ_overlap_le hA hB h1 h2 hab hov2
  · have := occ_overlap_le hB hA h2 h1 hba hov1
    exact ⟨this.1.symm, this.2.symm⟩

theorem occ_cons_shift {noun : List Char} {c : Char} {cs : List Char} {pw : Bool} {b : Nat} :
    nounOccAtPW noun (c :: cs) pw (b + 1) ↔ nounOccAtPW noun cs (isWordChar c) b := by
  unfold nounOccAtPW
  have e1 : ∀ k, (c :: cs).getD (b + 1 + k) ' ' = cs.getD (b + k) ' ' := by
    intro k
    have : b + 1 + k = (b + k) + 1 := by omega
    rw [this, List.getD_cons_succ]
  have e2 : (c :: cs).getD (b + 1 + noun.length) ' ' = cs.getD (b + noun.length) ' ' :=
    e1 noun.length
  constructor
  · rintro ⟨hl, hc, hp, ha⟩
    refine ⟨by simp at hl; omega, ?_, ?_, by rwa [e2] at ha⟩
    · intro k hk
      rw [← e1 k]
      exact hc k hk
    · rw [if_neg (by omega : b + 1 ≠ 0)] at hp
      cases b with
      | zero =>
        rw [if_pos rfl]
        simpa using hp
      | succ j =>
        rw [if_neg (by omega : j + 1 ≠ 0)]
        have : (c :: cs).getD (j + 1 + 1 - 1) ' ' = cs.getD (j + 1 - 1) ' ' := by
          simp
        rwa [this] at hp
  · rintro ⟨hl, hc, hp, ha⟩
    refine ⟨by simp; omega, ?_, ?_, by rwa [e2]⟩
    · intro k hk
      rw [e1 k]
      exact hc k hk
    · rw [if_neg (by omega : b + 1 ≠ 0)]
      cases b with
      | zero =>
        rw [if_pos rfl] at hp
        simpa using hp
      | succ j =>
        rw [if_neg (by omega : j + 1 ≠ 0)] at hp
        have : (c :: cs).getD (j + 1 + 1 - 1) ' ' = cs.getD (j + 1 - 1) ' ' := by
          simp
        rwa [this]

theorem occ_zero_iff {noun : List Char} {c : Char} {cs : List Char} {pw : Bool} :
    nounOccAtPW noun (c :: cs) pw 0 ↔ (pw = false ∧ ciWordMatch noun (c :: cs) = true) := by
  unfold nounOccAtPW
  rw [ciWordMatch_iff]
  constructor
  · rintro ⟨hl, hc, hp, ha⟩
    rw [if_pos rfl] at hp
    refine ⟨hp, by omega, ?_, by simpa using ha⟩
    intro k hk
    simpa using hc k hk
  · rintro ⟨hp, hl, hc, ha⟩
    refine ⟨by omega, by simpa using hc, by rw [if_pos rfl]; exact hp, by simpa using ha⟩

theorem occ_drop_shift {noun l : List Char} {pw : Bool} {b : Nat}
    (hn : lowerAlphaNoun noun) (h0 : nounOccAtPW noun l pw 0) :
    nounOccAtPW noun (l.drop noun.length) true b ↔
      nounOccAtPW noun l pw (b + noun.length) := by
  have hnpos : 0 < noun.length := List.length_pos.mpr hn.1
  have hnle : noun.length ≤ l.length := by
    have := h0.1
    omega
  unfold nounOccAtPW
  have hdlen : (l.drop noun.length).length = l.length - noun.length := by simp
  have e1 : ∀ k, (l.drop noun.length).getD (b + k) ' ' =
      l.getD (b + noun.length + k) ' ' := by
    intro k
    rw [getD_drop_char]
    congr 1
    omega
  constructor
  · rintro ⟨hl, hc, hp, ha⟩
    refine ⟨by omega, ?_, ?_, ?_⟩
    · intro k hk
      rw [← e1 k]
      exact hc k hk
    · rw [if_neg (by omega : b + noun.length ≠ 0)]
      cases b with
      | zero =>
        rw [if_pos rfl] at hp
        cases hp
      | succ j =>
        rw [if_neg (by omega : j + 1 ≠ 0)] at hp
        have : (l.drop noun.length).getD (j + 1 - 1) ' ' =
            l.getD (j + 1 + noun.length - 1) ' ' := by
          rw [getD_drop_char]
          congr 1
          omega
        rwa [this] at hp
    · have : (l.drop noun.length).getD (b + noun.length) ' ' =
          l.getD (b + noun.length + noun.length) ' ' := e1 noun.length
      rwa [this] at ha
  · rintro ⟨hl, hc, hp, ha⟩
    refine ⟨by omega, ?_, ?_, ?_⟩
    · intro k hk
      rw [e1 k]
      exact hc k hk
    · cases b with
      | zero =>
        exfalso
        rw [if_neg (by omega : (0 : Nat) + noun.length ≠ 0)] at hp
        have hword := occ_chars_word hn h0 (0 + noun.length - 1) (by omega) (by omega)
        rw [hword] at hp
        cases hp
      | succ j =>
        rw [if_neg (by omega : j + 1 ≠ 0)]
        rw [if_neg (by omega : j + 1 + noun.length ≠ 0)] at hp
        have : (l.drop noun.length).getD (j + 1 - 1) ' ' =
            l.getD (j + 1 + noun.length - 1) ' ' := by
          rw [getD_drop_char]
          congr 1
          omega
        rwa [this]
    · rw [e1 noun.length]
      exact ha

theorem length_titlecase (m : List Char) : (titlecase m).length = m.length := by
  cases m <;> simp [titlecase]

theorem titlecase_getElem? (m : List Char) (i : Nat) :
    (titlecase m)[i]? = (m[i]?).map (fun c =>
      if i = 0 then Char.toUpper c else Char.toLower c) := by
  cases m with
  | nil => simp [titlecase]
  | cons c cs =>
    cases i with
    | zero => simp [titlecase]
    | succ j => simp [titlecase, List.getElem?_map]

open Classical in
theorem replaceNounFuel_spec (noun : List Char) (hn : lowerAlphaNoun noun) :
    ∀ (fuel : Nat) (l : List Char) (pw : Bool), l.length ≤ fuel →
      (replaceNounFuel noun fuel pw l).length = l.length ∧
      ∀ i, (replaceNounFuel noun fuel pw l)[i]? = (l[i]?).map (fun c =>
        if nounOccAtPW noun l pw i then Char.toUpper c
        else if ∃ a, nounOccAtPW noun l pw a ∧ a < i ∧ i < a + noun.length then
          Char.toLower c
        else c) := by
  have hnpos : 0 < noun.length := List.length_pos.mpr hn.1
  intro fuel
  induction fuel with
  | zero =>
    intro l pw hle
    have hnil : l = [] := List.eq_nil_of_length_eq_zero (by omega)
    subst hnil
    exact ⟨rfl, by intro i; simp [replaceNounFuel]⟩
  | succ fuel ih =>
    intro l pw hle
    cases l with
    | nil => exact ⟨rfl, by intro i; simp [replaceNounFuel]⟩
    | cons c cs =>
      by_cases hG : (!pw && !noun.isEmpty && ciWordMatch noun (c :: cs)) = true
      · -- match at the head
        have hstep : replaceNounFuel noun (fuel + 1) pw (c :: cs) =
            titlecase ((c :: cs).take noun.length) ++
              replaceNounFuel noun fuel true ((c :: cs).drop noun.length) := by
          simp only [replaceNounFuel]
          rw [if_pos hG]
        simp only [Bool.and_eq_true, Bool.not_eq_true'] at hG
        have hOcc0 : nounOccAtPW noun (c :: cs) pw 0 :=
          occ_zero_iff.mpr ⟨hG.1.1, hG.2⟩
        have hnle : noun.length ≤ (c :: cs).length := by
          have := hOcc0.1
          omega
        have htlen : (titlecase ((c :: cs).take noun.length)).length = noun.length := by
          rw [length_titlecase, List.length_take]
          omega
        have hdlen : ((c :: cs).drop noun.length).length =
            (c :: cs).length - noun.length := by simp
        have IH := ih ((c :: cs).drop noun.length) true
          (by rw [hdlen]; simp only [List.length_cons] at hle ⊢; omega)
        constructor
        · rw [hstep, List.length_append, htlen, IH.1, hdlen]
          omega
        · intro i
          rw [hstep, List.getElem?_append]
          by_cases hi : i < noun.length
          · rw [if_pos (by omega : i < (titlecase ((c :: cs).take noun.length)).length)]
            rw [titlecase_getElem?, List.getElem?_take, if_pos hi]
            congr 1
            funext d
            by_cases hi0 : i = 0
            · subst hi0
              rw [if_pos rfl, if_pos hOcc0]
            · rw [if_neg hi0]
              have hnoStart : ¬ nounOccAtPW noun (c :: cs) pw i := by
                intro hocc
                have := occ_overlap hn hn hOcc0 hocc (by omega) (by omega)
                omega
              have hInside : ∃ a, nounOccAtPW noun (c :: cs) pw a ∧ a < i ∧
                  i < a + noun.length :=
                ⟨0, hOcc0, by omega, by omega⟩
              rw [if_neg hnoStart, if_pos hInside]
          · rw [if_neg (by omega : ¬ i < (titlecase ((c :: cs).take noun.length)).length),
              htlen, IH.2 (i - noun.length), List.getElem?_drop]
            have hidx : noun.length + (i - noun.length) = i := by omega
            rw [hidx]
            congr 1
            funext d
            have hc1 : nounOccAtPW noun ((c :: cs).drop noun.length) true (i - noun.length) ↔
                nounOccAtPW noun (c :: cs) pw i := by
              rw [occ_drop_shift hn hOcc0]
              have : i - noun.length + noun.length = i := by omega
              rw [this]
            have hc2 : (∃ a, nounOccAtPW noun ((c :: cs).drop noun.length) true a ∧
                a < i - noun.length ∧ i - noun.length < a + noun.length) ↔
                (∃ a, nounOccAtPW noun (c :: cs) pw a ∧ a < i ∧ i < a + noun.length) := by
              constructor
              · rintro ⟨b, hb, hb1, hb2⟩
                exact ⟨b + noun.length, (occ_drop_shift hn hOcc0).mp hb, by omega, by omega⟩
              · rintro ⟨a, ha, ha1, ha2⟩
                have hange : noun.length ≤ a := by
                  by_contra hlt
                  by_cases ha0 : a = 0
                  · subst ha0
                    omega
                  · have := occ_overlap hn hn hOcc0 ha (by omega) (by omega)
                    omega
                refine ⟨a - noun.length, ?_, by omega, by omega⟩
                rw [occ_drop_shift hn hOcc0]
                have : a - noun.length + noun.length = a := by omega
                rw [this]
                exact ha
            simp only [hc1, hc2]
      · -- no match at the head
        have hstep : replaceNounFuel noun (fuel + 1) pw (c :: cs) =
            c :: replaceNounFuel noun fuel (isWordChar c) cs := by
          simp only [replaceNounFuel]
          rw [if_neg hG]
        have hNo0 : ¬ nounOccAtPW noun (c :: cs) pw 0 := by
          intro h
          rcases occ_zero_iff.mp h with ⟨hpw, hciw⟩
          apply hG
          have hne : noun.isEmpty = false := List.isEmpty_eq_false.mpr hn.1
          simp [hpw, hciw, hne]
        have IH := ih cs (isWordChar c) (by simp only [List.length_cons] at hle; omega)
        constructor
        · rw [hstep]
          simp [IH.1]
        · intro i
          rw [hstep]
          cases i with
          | zero =>
            simp only [List.getElem?_cons_zero, Option.map_some']
            rw [if_neg hNo0, if_neg (by rintro ⟨a, _, ha, _⟩; omega)]
          | succ i =>
            simp only [List.getElem?_cons_succ]
            rw [IH.2 i]
            congr 1
            funext d
            have hc1 : nounOccAtPW noun cs (isWordChar c) i ↔
                nounOccAtPW noun (c :: cs) pw (i + 1) := occ_cons_shift.symm
            have hc2 : (∃ b, nounOccAtPW noun cs (isWordChar c) b ∧ b < i ∧
                i < b + noun.length) ↔
                (∃ a, nounOccAtPW noun (c :: cs) pw a ∧ a < i + 1 ∧
                  i + 1 < a + noun.length) := by
              constructor
              · rintro ⟨b, hb, hb1, hb2⟩
                exact ⟨b + 1, occ_cons_shift.mpr hb, by omega, by omega⟩
              · rintro ⟨a, ha, ha1, ha2⟩
                cases a with
                | zero => exact absurd ha hNo0
                | succ b => exact ⟨b, occ_cons_shift.mp ha, by omega, by omega⟩
            simp only [hc1, hc2]

theorem replaceNoun_length (noun : List Char) (hn : lowerAlphaNoun noun) (l : List Char) :
    (replaceNoun noun l).length = l.length :=
  (replaceNounFuel_spec noun hn l.length l false le_rfl).1

open Classical in
theorem replaceNoun_getElem? (noun : List Char) (hn : lowerAlphaNoun noun) (l : List Char)
    (i : Nat) :
    (replaceNoun noun l)[i]? = (l[i]?).map (fun c =>
      if nounOccAtPW noun l false i then Char.toUpper c
      else if ∃ a, nounOccAtPW noun l false a ∧ a < i ∧ i < a + noun.length then
        Char.toLower c
      else c) :=
  (replaceNounFuel_spec noun hn l.length l false le_rfl).2 i

theorem replaceNoun_toLower (noun : List Char) (hn : lowerAlphaNoun noun) (l : List Char)
    (i : Nat) :
    Char.toLower ((replaceNoun noun l).getD i ' ') = Char.toLower (l.getD i ' ') := by
  rw [getD_eq_getElem?_char, getD_eq_getElem?_char, replaceNoun_getElem? noun hn l i]
  cases l[i]? with
  | none => rfl
  | some d =>
    simp only [Option.map_some', Option.getD_some]
    split_ifs
    · exact toLower_toUpper d
    · exact toLower_toLower d
    · rfl

theorem nounOccAtPW_congr {noun l lp : List Char} {pw : Bool} {a : Nat}
    (hlen : lp.length = l.length)
    (hlow : ∀ i, Char.toLower (lp.getD i ' ') = Char.toLower (l.getD i ' ')) :
    nounOccAtPW noun lp pw a ↔ nounOccAtPW noun l pw a := by
  have hword : ∀ i, isWordChar (lp.getD i ' ') = isWordChar (l.getD i ' ') := by
    intro i
    rw [← isWordChar_toLower (lp.getD i ' '), hlow i, isWordChar_toLower]
  unfold nounOccAtPW
  simp only [hlen, hlow, hword]

theorem nounStartP_congr {NS : List (List Char)} {l lp : List Char} {i : Nat}
    (hlen : lp.length = l.length)
    (hlow : ∀ j, Char.toLower (lp.getD j ' ') = Char.toLower (l.getD j ' ')) :
    nounStartP NS lp i ↔ nounStartP NS l i := by
  unfold nounStartP
  refine exists_congr fun noun => and_congr_right fun _ => ?_
  exact nounOccAtPW_congr hlen hlow

theorem nounInsideP_congr {NS : List (List Char)} {l lp : List Char} {i : Nat}
    (hlen : lp.length = l.length)
    (hlow : ∀ j, Char.toLower (lp.getD j ' ') = Char.toLower (l.getD j ' ')) :
    nounInsideP NS lp i ↔ nounInsideP NS l i := by
  unfold nounInsideP
  refine exists_congr fun noun => and_congr_right fun _ => exists_congr fun a => ?_
  exact and_congr_left fun _ => nounOccAtPW_congr hlen hlow

open Classical in
theorem foldNouns_spec : ∀ (NS : List (List Char)),
    (∀ noun ∈ NS, lowerAlphaNoun noun) → NS.Nodup →
    ∀ l : List Char,
      (NS.foldl (fun acc noun => replaceNoun noun acc) l).length = l.length ∧
      ∀ i : Nat, (NS.foldl (fun acc noun => replaceNoun noun acc) l)[i]? =
        (l[i]?).map (fun c =>
          if nounStartP NS l i then Char.toUpper c
          else if nounInsideP NS l i then Char.toLower c
          else c) := by
  intro NS
  induction NS with
  | nil =>
    intro _ _ l
    refine ⟨rfl, fun i => ?_⟩
    have h1 : ¬ nounStartP [] l i := by rintro ⟨noun, hmem, _⟩; cases hmem
    have h2 : ¬ nounInsideP [] l i := by rintro ⟨noun, hmem, _⟩; cases hmem
    simp only [List.foldl_nil, if_neg h1, if_neg h2]
    cases l[i]? <;> rfl
  | cons A NS ih =>
    intro hall hnd l
    have hA : lowerAlphaNoun A := hall A (List.mem_cons_self A NS)
    have hAL : 0 < A.length := List.length_pos.mpr hA.1
    have hNS : ∀ noun ∈ NS, lowerAlphaNoun noun :=
      fun noun hmem => hall noun (List.mem_cons_of_mem A hmem)
    have hnotmem : A ∉ NS := (List.nodup_cons.mp hnd).1
    have hnd2 : NS.Nodup := (List.nodup_cons.mp hnd).2
    have hlen2 : (replaceNoun A l).length = l.length := replaceNoun_length A hA l
    have hlow2 : ∀ j, Char.toLower ((replaceNoun A l).getD j ' ') =
        Char.toLower (l.getD j ' ') := replaceNoun_toLower A hA l
    have IH := ih hNS hnd2 (replaceNoun A l)
    constructor
    · rw [List.foldl_cons, IH.1, hlen2]
    · intro i
      rw [List.foldl_cons, IH.2 i]
      simp only [nounStartP_congr hlen2 hlow2, nounInsideP_congr hlen2 hlow2]
      rw [replaceNoun_getElem? A hA l i, Option.map_map]
      cases hx : l[i]? with
      | none => rfl
      | some d =>
        simp only [Option.map_some']
        apply congrArg
        simp only [Function.comp_apply]
        by_cases hS : nounOccAtPW A l false i
        · have hSall : nounStartP (A :: NS) l i := ⟨A, List.mem_cons_self A NS, hS⟩
          have hnoS : ¬ nounStartP NS l i := by
            rintro ⟨B, hB, hocc⟩
            have hBl := hNS B hB
            have hBL : 0 < B.length := List.length_pos.mpr hBl.1
            have := occ_overlap hA hBl hS hocc (by omega) (by omega)
            exact hnotmem (this.2 ▸ hB)
          have hnoI : ¬ nounInsideP NS l i := by
            rintro ⟨B, hB, a, hocc, ha1, ha2⟩
            have hBl := hNS B hB
            have := occ_overlap hA hBl hS hocc (by omega) (by omega)
            omega
          simp only [if_pos hS, if_neg hnoS, if_neg hnoI, if_pos hSall]
        · by_cases hI : ∃ a, nounOccAtPW A l false a ∧ a < i ∧ i < a + A.length
          · obtain ⟨a, hocc, ha1, ha2⟩ := hI
            have hnoS : ¬ nounStartP NS l i := by
              rintro ⟨B, hB, hoccB⟩
              have hBl := hNS B hB
              have hBL : 0 < B.length := List.length_pos.mpr hBl.1
              have := occ_overlap hA hBl hocc hoccB (by omega) (by omega)
              omega
            have hnoI : ¬ nounInsideP NS l i := by
              rintro ⟨B, hB, b, hoccB, hb1, hb2⟩
              have hBl := hNS B hB
              have := occ_overlap hA hBl hocc hoccB (by omega) (by omega)
              exact hnotmem (this.2 ▸ hB)
            have hnoSall : ¬ nounStartP (A :: NS) l i := by
              rintro ⟨C, hC, hoccC⟩
              rcases List.mem_cons.mp hC with hCA | hCNS
              · exact hS (hCA ▸ hoccC)
              · exact hnoS ⟨C, hCNS, hoccC⟩
            have hIall : nounInsideP (A :: NS) l i :=
              ⟨A, List.mem_cons_self A NS, a, hocc, ha1, ha2⟩
            simp only [if_neg hS, if_pos (⟨a, hocc, ha1, ha2⟩ :
              ∃ a, nounOccAtPW A l false a ∧ a < i ∧ i < a + A.length),
              if_neg hnoS, if_neg hnoI, if_neg hnoSall, if_pos hIall]
          · have hSiff : nounStartP (A :: NS) l i ↔ nounStartP NS l i := by
              constructor
              · rintro ⟨C, hC, hoccC⟩
                rcases List.mem_cons.mp hC with hCA | hCNS
                · exact absurd (hCA ▸ hoccC) hS
                · exact ⟨C, hCNS, hoccC⟩
              · rintro ⟨C, hC, hoccC⟩
                exact ⟨C, List.mem_cons_of_mem A hC, hoccC⟩
            have hIiff : nounInsideP (A :: NS) l i ↔ nounInsideP NS l i := by
              constructor
              · rintro ⟨C, hC, a, hoccC, h1, h2⟩
                rcases List.mem_cons.mp hC with hCA | hCNS
                · exact absurd ⟨a, hCA ▸ hoccC, h1, hCA ▸ h2⟩ hI
                · exact ⟨C, hCNS, a, hoccC, h1, h2⟩
              · rintro ⟨C, hC, a, hoccC, h1, h2⟩
                exact ⟨C, List.mem_cons_of_mem A hC, a, hoccC, h1, h2⟩
            simp only [if_neg hS, if_neg hI, if_congr hSiff rfl (if_congr hIiff rfl rfl)]

theorem properNouns_lowerAlpha : ∀ noun ∈ properNouns, lowerAlphaNoun noun := by
  unfold lowerAlphaNoun
  decide

theorem properNouns_nodup : properNouns.Nodup := by
  decide

theorem properNouns_len2 : ∀ noun ∈ properNouns, 2 ≤ noun.length := by
  decide

theorem applyNouns_length (l : List Char) : (applyNouns l).length = l.length :=
  (foldNouns_spec properNouns properNouns_lowerAlpha properNouns_nodup l).1

open Classical in
theorem applyNouns_getElem? (l : List Char) (i : Nat) :
    (applyNouns l)[i]? = (l[i]?).map (fun c =>
      if nounStartP properNouns l i then Char.toUpper c
      else if nounInsideP properNouns l i then Char.toLower c
      else c) :=
  (foldNouns_spec properNouns properNouns_lowerAlpha properNouns_nodup l).2 i

theorem nounOccAt_iff {s noun : List Char} {a : Nat} :
    nounOccAt s noun a = true ↔ nounOccAtPW noun s false a := by
  unfold nounOccAt nounOccAtPW
  simp only [Bool.and_eq_true, Bool.or_eq_true, beq_iff_eq, decide_eq_true_eq,
    Bool.not_eq_true']
  rw [map_toLower_take_eq_iff]
  constructor
  · rintro ⟨⟨⟨h1, _, h3⟩, h4⟩, h5⟩
    refine ⟨h1, ?_, ?_, h5⟩
    · intro k hk
      have := h3 k hk
      rwa [getD_drop_char] at this
    · by_cases h0 : a = 0
      · rw [if_pos h0]
        trivial
      · rw [if_neg h0]
        rcases h4 with h4 | h4
        · exact absurd h4 h0
        · exact h4
  · rintro ⟨h1, h2, h3, h4⟩
    refine ⟨⟨⟨h1, by simp; omega, ?_⟩, ?_⟩, h4⟩
    · intro k hk
      rw [getD_drop_char]
      exact h2 k hk
    · by_cases h0 : a = 0
      · exact Or.inl h0
      · rw [if_neg h0] at h3
        exact Or.inr h3

theorem nounStartAt_iff {s : List Char} {i : Nat} :
    nounStartAt s i = true ↔ nounStartP properNouns s i := by
  unfold nounStartAt nounStartP
  simp only [List.any_eq_true, nounOccAt_iff]

theorem nounInsideAt_iff {s : List Char} {i : Nat} :
    nounInsideAt s i = true ↔ nounInsideP properNouns s i := by
  unfold nounInsideAt nounInsideP
  simp only [List.any_eq_true, Bool.and_eq_true, decide_eq_true_eq, List.mem_range,
    nounOccAt_iff]
  constructor
  · rintro ⟨noun, hm, a, ha, hocc, hlt⟩
    exact ⟨noun, hm, a, hocc, ha, hlt⟩
  · rintro ⟨noun, hm, a, hocc, ha, hlt⟩
    exact ⟨noun, hm, a, ha, hocc, hlt⟩

theorem standaloneI_iff {s : List Char} {i : Nat} :
    standaloneI s i = true ↔
      (s.getD i ' ' = 'i' ∧ (i = 0 ∨ isWordChar (s.getD (i - 1) ' ') = false) ∧
        isWordChar (s.getD (i + 1) ' ') = false) := by
  unfold standaloneI
  simp only [Bool.and_eq_true, Bool.or_eq_true, Bool.not_eq_true', decide_eq_true_eq,
    and_assoc]

theorem getElem?_eq_some_getD {s : List Char} {i : Nat} (h : i < s.length) :
    s[i]? = some (s.getD i ' ') := by
  rw [getD_eq_getElem?_char, List.getElem?_eq_getElem h]
  rfl

theorem isWordChar_congr_of_toLower {c d : Char} (h : Char.toLower c = Char.toLower d) :
    isWordChar c = isWordChar d := by
  rw [← isWordChar_toLower c, h, isWordChar_toLower]

theorem isPunctSE_congr_of_toLower {c d : Char} (h : Char.toLower c = Char.toLower d) :
    isPunctSE c = isPunctSE d := by
  rw [← isPunctSE_toLower c, h, isPunctSE_toLower]

theorem isWs_congr_of_toLower {c d : Char} (h : Char.toLower c = Char.toLower d) :
    isWs c = isWs d := by
  rw [← isWs_toLower c, h, isWs_toLower]

theorem capFirst_toLower (s : List Char) (j : Nat) :
    Char.toLower ((capFirst s).getD j ' ') = Char.toLower (s.getD j ' ') := by
  rw [getD_eq_getElem?_char, getD_eq_getElem?_char, capFirst_getElem?]
  by_cases h0 : j = 0
  · subst h0
    rw [if_pos rfl]
    cases s[0]? with
    | none => rfl
    | some d =>
      simp only [Option.map_some', Option.getD_some]
      exact toLower_toUpper d
  · rw [if_neg h0]

theorem capAfterPunct_toLower (s : List Char) (st : PunctSt) (j : Nat) :
    Char.toLower ((capAfterPunct st s).getD j ' ') = Char.toLower (s.getD j ' ') := by
  rw [getD_eq_getElem?_char, getD_eq_getElem?_char, capAfterPunct_getElem?]
  cases s[j]? with
  | none => rfl
  | some d =>
    simp only [Option.map_some', Option.getD_some]
    split_ifs
    · exact toLower_toUpper d
    · rfl

theorem capIGo_toLower (s : List Char) (pw : Bool) (j : Nat) :
    Char.toLower ((capIGo pw s).getD j ' ') = Char.toLower (s.getD j ' ') := by
  rw [getD_eq_getElem?_char, getD_eq_getElem?_char, capIGo_getElem?]
  cases s[j]? with
  | none => rfl
  | some d =>
    simp only [Option.map_some', Option.getD_some]
    by_cases hG : (d = 'i' && !(if j = 0 then pw else isWordChar (s.getD (j - 1) ' ')) &&
        !isWordChar (s.getD (j + 1) ' ')) = true
    · rw [if_pos hG]
      have hd : d = 'i' := by
        simp only [Bool.and_eq_true, decide_eq_true_eq] at hG
        exact hG.1.1
      rw [hd]
      decide
    · rw [if_neg hG]

theorem punctStep_congr {st : PunctSt} {c d : Char} (h1 : isPunctSE c = isPunctSE d)
    (h2 : isWs c = isWs d) : punctStep st c = punctStep st d := by
  unfold punctStep
  rw [h1, h2]

theorem punctStateAt_congr {s sp : List Char} (hlen : sp.length = s.length)
    (hlow : ∀ j, Char.toLower (sp.getD j ' ') = Char.toLower (s.getD j ' ')) :
    ∀ i, i ≤ s.length → punctStateAt sp i = punctStateAt s i := by
  intro i
  induction i with
  | zero => intro _; rfl
  | succ i ih =>
    intro hle
    rw [punctStateAt_succ sp i (by omega), punctStateAt_succ s i (by omega),
      ih (by omega)]
    exact punctStep_congr (isPunctSE_congr_of_toLower (hlow i))
      (isWs_congr_of_toLower (hlow i))

/-- C8: the finalization capitalization (the composition of the four rules of
PostProcessor._capitalizeText: first-character upper-casing, the post-punctuation
regex replace, the standalone-i replace and the proper-noun loop) changes exactly
the characters the claim prescribes: it equals the positional rewrite that
upper-cases the first character, upper-cases a lowercase letter standing after
sentence-ending punctuation plus whitespace, upper-cases every standalone word i,
title-cases every day-of-week and month-name occurrence (initial capital, rest
lowercase, regardless of input casing), and leaves every other character
unchanged. -/
theorem capitalizeText_eq_specCapitalize (s : List Char) :
    capitalizeText s = specCapitalize s := by
  classical
  by_cases hnil : s = []
  · subst hnil
    rfl
  rw [capitalizeText, if_neg hnil]
  have hlen1 : (capFirst s).length = s.length := length_capFirst s
  have hlen2 : (capAfterPunct .clear (capFirst s)).length = s.length := by
    rw [length_capAfterPunct]
    exact hlen1
  have hlen3 : (capIGo false (capAfterPunct .clear (capFirst s))).length = s.length := by
    rw [length_capIGo]
    exact hlen2
  have hlowA : ∀ j, Char.toLower ((capFirst s).getD j ' ') = Char.toLower (s.getD j ' ') :=
    capFirst_toLower s
  have hlowB : ∀ j, Char.toLower ((capAfterPunct .clear (capFirst s)).getD j ' ') =
      Char.toLower (s.getD j ' ') := fun j =>
    (capAfterPunct_toLower (capFirst s) .clear j).trans (hlowA j)
  have hlowC : ∀ j,
      Char.toLower ((capIGo false (capAfterPunct .clear (capFirst s))).getD j ' ') =
      Char.toLower (s.getD j ' ') := fun j =>
    (capIGo_toLower _ false j).trans (hlowB j)
  have hwordB : ∀ j, isWordChar ((capAfterPunct .clear (capFirst s)).getD j ' ') =
      isWordChar (s.getD j ' ') := fun j => isWordChar_congr_of_toLower (hlowB j)
  apply List.ext_getElem?
  intro i
  by_cases hi : i < s.length
  case neg =>
    have hL : (applyNouns (capIGo false (capAfterPunct .clear (capFirst s)))).length ≤ i := by
      rw [applyNouns_length, hlen3]
      omega
    have hR : (specCapitalize s).length ≤ i := by
      simp only [specCapitalize, List.length_map, List.length_range]
      omega
    rw [List.getElem?_eq_none hL, List.getElem?_eq_none hR]
  case pos =>
  set c := s.getD i ' ' with hcdef
  have hs0 : s[i]? = some c := getElem?_eq_some_getD hi
  have h1v : (capFirst s).getD i ' ' = (if i = 0 then Char.toUpper c else c) := by
    rw [getD_eq_getElem?_char, capFirst_getElem?]
    by_cases h0 : i = 0
    · subst h0
      rw [if_pos rfl, if_pos rfl, hs0]
      rfl
    · rw [if_neg h0, if_neg h0, hs0]
      rfl
  have h1s : (capFirst s)[i]? = some ((capFirst s).getD i ' ') :=
    getElem?_eq_some_getD (by omega)
  have h2s : (capAfterPunct .clear (capFirst s))[i]? =
      some ((capAfterPunct .clear (capFirst s)).getD i ' ') :=
    getElem?_eq_some_getD (by omega)
  have h3s : (capIGo false (capAfterPunct .clear (capFirst s)))[i]? =
      some ((capIGo false (capAfterPunct .clear (capFirst s))).getD i ' ') :=
    getElem?_eq_some_getD (by omega)
  have hstate : punctStateAt (capFirst s) i = punctStateAt s i :=
    punctStateAt_congr hlen1 hlowA i (by omega)
  have hA2 : decide (((capFirst s).take i).foldl punctStep PunctSt.clear =
      PunctSt.seenPunctWs) = punctCtx s i := by
    rw [bool_eq_iff]
    simp only [decide_eq_true_eq]
    have e1 : ((capFirst s).take i).foldl punctStep PunctSt.clear =
        punctStateAt s i := hstate
    rw [e1]
    exact (punctStateAt_spec s i (by omega)).2
  have h2v : (capAfterPunct .clear (capFirst s)).getD i ' ' =
      (if (punctCtx s i && ((capFirst s).getD i ' ').isLower) = true
        then Char.toUpper ((capFirst s).getD i ' ')
        else (capFirst s).getD i ' ') := by
    rw [getD_eq_getElem?_char, capAfterPunct_getElem?, h1s]
    simp only [Option.map_some', Option.getD_some]
    rw [hA2]
  have h3v : (capIGo false (capAfterPunct .clear (capFirst s))).getD i ' ' =
      (if ((capAfterPunct .clear (capFirst s)).getD i ' ' = 'i' &&
          !(if i = 0 then false else isWordChar (s.getD (i - 1) ' ')) &&
          !isWordChar (s.getD (i + 1) ' ')) = true
        then 'I' else (capAfterPunct .clear (capFirst s)).getD i ' ') := by
    rw [getD_eq_getElem?_char, capIGo_getElem?, h2s]
    simp only [Option.map_some', Option.getD_some]
    rw [hwordB (i - 1), hwordB (i + 1)]
  have hfin : (applyNouns (capIGo false (capAfterPunct .clear (capFirst s))))[i]? =
      some (if nounStartP properNouns s i
          then Char.toUpper ((capIGo false (capAfterPunct .clear (capFirst s))).getD i ' ')
        else if nounInsideP properNouns s i
          then Char.toLower ((capIGo false (capAfterPunct .clear (capFirst s))).getD i ' ')
        else (capIGo false (capAfterPunct .clear (capFirst s))).getD i ' ') := by
    rw [applyNouns_getElem?, h3s]
    simp only [Option.map_some']
    rw [if_congr (nounStartP_congr hlen3 hlowC) rfl
      (if_congr (nounInsideP_congr hlen3 hlowC) rfl rfl)]
  have hspec : (specCapitalize s)[i]? =
      some (if (decide (i = 0) || (punctCtx s i && c.isLower) || standaloneI s i ||
            nounStartAt s i) = true
          then Char.toUpper c
        else if nounInsideAt s i = true then Char.toLower c
        else c) := by
    unfold specCapitalize
    rw [List.getElem?_map, List.getElem?_range hi]
    rfl
  rw [hfin, hspec]
  apply congrArg
  by_cases hNS : nounStartP properNouns s i
  · rw [if_pos hNS]
    have hb : nounStartAt s i = true := nounStartAt_iff.mpr hNS
    obtain ⟨noun, hmem, hocc⟩ := hNS
    have hn := properNouns_lowerAlpha noun hmem
    have hn2 := properNouns_len2 noun hmem
    have hnext : isWordChar (s.getD (i + 1) ' ') = true :=
      occ_chars_word hn hocc (i + 1) (by omega) (by omega)
    have h3eq : (capIGo false (capAfterPunct .clear (capFirst s))).getD i ' ' =
        (capAfterPunct .clear (capFirst s)).getD i ' ' := by
      rw [h3v, hnext]
      simp
    have hguard : (decide (i = 0) || (punctCtx s i && c.isLower) || standaloneI s i ||
        nounStartAt s i) = true := by
      rw [hb]
      simp
    rw [if_pos hguard, h3eq, h2v, h1v]
    split_ifs <;> simp [toUpper_toUpper]
  · rw [if_neg hNS]
    by_cases hNI : nounInsideP properNouns s i
    · rw [if_pos hNI]
      have hni : nounInsideAt s i = true := nounInsideAt_iff.mpr hNI
      obtain ⟨noun, hmem, a, hocc, ha1, ha2⟩ := hNI
      have hn := properNouns_lowerAlpha noun hmem
      have hprev : isWordChar (s.getD (i - 1) ' ') = true :=
        occ_chars_word hn hocc (i - 1) (by omega) (by omega)
      have hi0 : ¬ i = 0 := by omega
      have hpc : punctCtx s i = false := by
        rw [← Bool.not_eq_true]
        intro hp
        have hr := (punctCtx_eq_true_iff.mp hp).1
        have hws := (wsRunBefore_pos hr).2
        rw [not_ws_of_isWordChar hprev] at hws
        cases hws
      have h1eq : (capFirst s).getD i ' ' = c := by rw [h1v, if_neg hi0]
      have h2eq : (capAfterPunct .clear (capFirst s)).getD i ' ' = c := by
        rw [h2v, h1eq, hpc]
        simp
      have h3eq : (capIGo false (capAfterPunct .clear (capFirst s))).getD i ' ' = c := by
        rw [h3v, h2eq, if_neg hi0, hprev]
        simp
      have hsa : standaloneI s i = false := by
        rw [← Bool.not_eq_true]
        intro h
        rcases standaloneI_iff.mp h with ⟨_, hpv, _⟩
        rcases hpv with h0 | hw
        · exact hi0 h0
        · rw [hprev] at hw
          cases hw
      have hns : nounStartAt s i = false := by
        rw [← Bool.not_eq_true]
        intro h
        exact hNS (nounStartAt_iff.mp h)
      have hguard : (decide (i = 0) || (punctCtx s i && c.isLower) || standaloneI s i ||
          nounStartAt s i) = false := by
        rw [hpc, hsa, hns]
        simp [hi0]
      rw [h3eq, hguard, hni]
      simp
    · rw [if_neg hNI]
      by_cases hI0 : i = 0
      · subst hI0
        have h1eq : (capFirst s).getD 0 ' ' = Char.toUpper c := by rw [h1v, if_pos rfl]
        have h2eq : (capAfterPunct .clear (capFirst s)).getD 0 ' ' = Char.toUpper c := by
          rw [h2v, h1eq, isLower_toUpper]
          simp
        have h3eq : (capIGo false (capAfterPunct .clear (capFirst s))).getD 0 ' ' =
            Char.toUpper c := by
          rw [h3v, h2eq]
          have hne : decide (Char.toUpper c = 'i') = false := by
            simp [toUpper_ne_i c]
          rw [hne]
          simp
        rw [h3eq]
        simp
      · have h1eq : (capFirst s).getD i ' ' = c := by rw [h1v, if_neg hI0]
        by_cases hPT : punctCtx s i = true ∧ c.isLower = true
        · have h2eq : (capAfterPunct .clear (capFirst s)).getD i ' ' =
              Char.toUpper c := by
            rw [h2v, h1eq, hPT.1, hPT.2]
            simp
          have h3eq : (capIGo false (capAfterPunct .clear (capFirst s))).getD i ' ' =
              Char.toUpper c := by
            rw [h3v, h2eq]
            have hne : decide (Char.toUpper c = 'i') = false := by
              simp [toUpper_ne_i c]
            rw [hne]
            simp
          have hguard : (decide (i = 0) || (punctCtx s i && c.isLower) ||
              standaloneI s i || nounStartAt s i) = true := by
            rw [hPT.1, hPT.2]
            simp
          rw [h3eq, hguard]
          simp
        · have hpcF : (punctCtx s i && c.isLower) = false := by
            rcases Bool.eq_false_or_eq_true (punctCtx s i) with h | h
            · rcases Bool.eq_false_or_eq_true c.isLower with h2 | h2
              · exact absurd ⟨h, h2⟩ hPT
              · rw [h2]
                simp
            · rw [h]
              simp
          have h2eq : (capAfterPunct .clear (capFirst s)).getD i ' ' = c := by
            rw [h2v, h1eq, hpcF]
            simp
          by_cases hSI : standaloneI s i = true
          · obtain ⟨hci, hpv, hnx⟩ := standaloneI_iff.mp hSI
            have hci2 : c = 'i' := by rw [hcdef]; exact hci
            have hprevF : isWordChar (s.getD (i - 1) ' ') = false := by
              rcases hpv with h0 | hw
              · exact absurd h0 hI0
              · exact hw
            have h3eq : (capIGo false (capAfterPunct .clear (capFirst s))).getD i ' ' =
                'I' := by
              rw [h3v, h2eq, if_neg hI0, hprevF, hnx, hci2]
              simp
            have hguard : (decide (i = 0) || (punctCtx s i && c.isLower) ||
                standaloneI s i || nounStartAt s i) = true := by
              rw [hSI]
              simp
            rw [h3eq, if_pos hguard, hci2]
            decide
          · have hsaF : standaloneI s i = false := by
              rcases Bool.eq_false_or_eq_true (standaloneI s i) with h | h
              · exact absurd h hSI
              · exact h
            have h3eq : (capIGo false (capAfterPunct .clear (capFirst s))).getD i ' ' =
                c := by
              rw [h3v, h2eq]
              have hcond : (c = 'i' &&
                  !(if i = 0 then false else isWordChar (s.getD (i - 1) ' ')) &&
                  !isWordChar (s.getD (i + 1) ' ')) = false := by
                rcases Bool.eq_false_or_eq_true (c = 'i' &&
                    !(if i = 0 then false else isWordChar (s.getD (i - 1) ' ')) &&
                    !isWordChar (s.getD (i + 1) ' ')) with h | h
                · exfalso
                  simp only [Bool.and_eq_true, Bool.not_eq_true',
                    decide_eq_true_eq, if_neg hI0] at h
                  apply hSI
                  rw [standaloneI_iff]
                  exact ⟨by rw [← hcdef]; exact h.1.1, Or.inr h.1.2, h.2⟩
                · exact h
              rw [hcond]
              simp
            have hnsF : nounStartAt s i = false := by
              rw [← Bool.not_eq_true]
              intro h
              exact hNS (nounStartAt_iff.mp h)
            have hniF : nounInsideAt s i = false := by
              rw [← Bool.not_eq_true]
              intro h
              exact hNI (nounInsideAt_iff.mp h)
            have hguard : (decide (i = 0) || (punctCtx s i && c.isLower) ||
                standaloneI s i || nounStartAt s i) = false := by
              rw [hpcF, hsaF, hnsF]
              simp [hI0]
            rw [h3eq, hguard, hniF]
            simp

end LocalVoice
